import Mathlib

/-!
# Verification of the org-structure hierarchy engine

Shallow embedding of the Go service `org-structure-api`:
* data model from `internal/domain` and `cmd/api/migrations/001_init_schema.sql`
  (both foreign keys are declared `ON DELETE CASCADE`);
* repository layer from `internal/repository` (department and employee
  repositories over the SQL store);
* business layer from `internal/service/department_service.go`;
* HTTP query parsing from the department handler (`parseGetQuery` plus
  `validator` tags on `GetDepartmentQuery`).

Identifiers (`int64` in Go, `BIGSERIAL` in SQL) are modelled as `Int`: no
arithmetic other than `+ 1` for a fresh key is ever performed on them, so
machine width is not load-bearing.  Timestamps are modelled as `Nat` (only
their order matters, for `ORDER BY created_at ASC`).
-/

namespace OrgStructure

/-- A row of the `departments` table (`domain.Department`). -/
structure Department where
  id : Int
  name : String
  parentId : Option Int
  createdAt : Nat
deriving DecidableEq, Repr

/-- A row of the `employees` table (`domain.Employee`). -/
structure Employee where
  id : Int
  departmentId : Int
  fullName : String
  position : String
  createdAt : Nat
deriving DecidableEq, Repr

/-- The relational store: the two tables. -/
structure Store where
  depts : List Department
  emps : List Employee
deriving DecidableEq, Repr

/-- Primary-key wellformedness guaranteed by the store (`id BIGSERIAL PRIMARY KEY`). -/
def Store.WF (s : Store) : Prop :=
  (s.depts.map (fun d => d.id)).Nodup

instance (s : Store) : Decidable s.WF := by
  unfold Store.WF; infer_instance

/-- The error taxonomy of `internal/domain/errors.go`, verbatim, plus two
outcomes that model store-level behaviour rather than domain errors:
`queryDiverges` marks a store-side recursive query whose frontier never
empties (the call never returns), and `storeFailure` marks a failed store
write (connectivity-class failure), used only for fault injection. -/
inductive Err where
  | departmentNotFound
  | employeeNotFound
  | duplicateDepartmentName
  | selfReference
  | cyclicReference
  | invalidDeleteMode
  | reassignTargetRequired
  | reassignTargetNotFound
  | cannotReassignToSelf
  | queryDiverges
  | storeFailure
deriving DecidableEq, Repr

/-! ## Department repository (`departmentRepository`, src/unnamed/part_000 … part_003) -/

/-- `db.First(&dept, id)`: first row whose primary key matches. -/
def findDept (s : Store) (id : Int) : Option Department :=
  s.depts.find? (fun d => d.id == id)

/-- `departmentRepository.GetByID`. -/
def deptGetByID (s : Store) (id : Int) : Except Err Department :=
  match findDept s id with
  | none => .error .departmentNotFound
  | some d => .ok d

/-- One step of the recursive CTE in `GetAllDescendantIDs`:
`SELECT d.id FROM departments d INNER JOIN descendants ds ON d.parent_id = ds.id`
applied to the current frontier. -/
def childrenOfIDs (s : Store) (ids : List Int) : List Int :=
  (s.depts.filter (fun d =>
    match d.parentId with
    | some p => ids.contains p
    | none => false)).map (fun d => d.id)

/-- The frontier of the recursive CTE after `n` joins; level `0` is the base
query `SELECT id FROM departments WHERE parent_id = $1`. -/
def descLevel (s : Store) (id : Int) : Nat → List Int
  | 0 => childrenOfIDs s [id]
  | n + 1 => childrenOfIDs s (descLevel s id n)

/-- All rows the CTE emits, assuming it terminates: the union of all
frontiers.  In a store with `N` departments a terminating run has an empty
frontier by level `N` (an element of level `k` heads a parent chain of `k + 1`
distinct rows), so levels `0 … N - 1` cover every emitted row. -/
def gadLevelsUnion (s : Store) (id : Int) : List Int :=
  (List.range s.depts.length).flatMap (descLevel s id)

/-- `departmentRepository.GetAllDescendantIDs`: the recursive CTE
(`WITH RECURSIVE descendants AS …`).  `UNION ALL` never deduplicates, so if
the frontier is still non-empty after `N` joins it is non-empty forever and
the query never returns, which the embedding marks `queryDiverges`. -/
def deptGetAllDescendantIDs (s : Store) (id : Int) : Except Err (List Int) :=
  if descLevel s id s.depts.length = [] then .ok (gadLevelsUnion s id)
  else .error .queryDiverges

/-- `departmentRepository.IsDescendant`: membership in the closure. -/
def deptIsDescendant (s : Store) (ancestorID descendantID : Int) : Except Err Bool :=
  match deptGetAllDescendantIDs s ancestorID with
  | .error e => .error e
  | .ok descendants => .ok (descendants.contains descendantID)

/-- The set of rows the store's referential action removes when row `id` is
deleted: `id` itself plus, transitively, every department whose parent was
removed (`parent_id BIGINT REFERENCES departments(id) ON DELETE CASCADE`).
Because each row has a unique parent column, a row is reachable from `id`
along child edges iff it shows up in some frontier level below `id`, so the
cascade set is `id` plus the union of levels. -/
def cascadeRemoved (s : Store) (id : Int) : List Int :=
  id :: gadLevelsUnion s id

/-- `departmentRepository.Delete`: one `DELETE` of row `id`
(`RowsAffected == 0` reports not-found); the store's referential actions then
remove the department subtree and, via
`department_id BIGINT NOT NULL REFERENCES departments(id) ON DELETE CASCADE`,
every employee row owned by a removed department. -/
def deptDelete (s : Store) (id : Int) : Except Err Store :=
  match findDept s id with
  | none => .error .departmentNotFound
  | some _ =>
    let removed := cascadeRemoved s id
    .ok { depts := s.depts.filter (fun d => !removed.contains d.id),
          emps := s.emps.filter (fun e => !removed.contains e.departmentId) }

/-- `departmentRepository.DeleteCascade` just forwards to `Delete`. -/
def deptDeleteCascade (s : Store) (id : Int) : Except Err Store :=
  deptDelete s id

/-- `departmentRepository.ExistsByNameAndParent` (`count > 0`). -/
def deptExistsByNameAndParent (s : Store) (name : String)
    (parentId : Option Int) (excludeId : Option Int) : Bool :=
  s.depts.any (fun d =>
    d.name == name
    && (match parentId with
        | some p => d.parentId == some p
        | none => d.parentId == none)
    && (match excludeId with
        | some e => d.id != e
        | none => true))

/-- `departmentRepository.Update` (`db.Save`): update the row with the same
primary key, inserting if absent. -/
def deptUpdateRow (s : Store) (dept : Department) : Store :=
  if s.depts.any (fun d => d.id == dept.id) then
    { s with depts := s.depts.map (fun d => if d.id == dept.id then dept else d) }
  else
    { s with depts := s.depts ++ [dept] }

/-- `BIGSERIAL` key generation: strictly above every existing key. -/
def freshDeptId (s : Store) : Int :=
  (s.depts.map (fun d => d.id)).foldl max 0 + 1

/-- `departmentRepository.Create`: insert with a fresh generated key. -/
def deptCreateRow (s : Store) (name : String) (parentId : Option Int) :
    Store × Department :=
  let d : Department :=
    { id := freshDeptId s, name := name, parentId := parentId, createdAt := 0 }
  ({ s with depts := s.depts ++ [d] }, d)

/-! ## Employee repository (`employeeRepository`, src/unnamed/part_001) -/

/-- `employeeRepository.ReassignToDepartment`: one bulk
`UPDATE employees SET department_id = to WHERE department_id = from`. -/
def empReassignToDepartment (s : Store) (fromDeptId toDeptId : Int) : Store :=
  { s with
    emps := s.emps.map (fun e =>
      if e.departmentId == fromDeptId then { e with departmentId := toDeptId } else e) }

/-! ## Request types (`internal/dto`, src/unnamed/part_003 second half) -/

/-- `dto.CreateDepartmentRequest`. -/
structure CreateDepartmentRequest where
  name : String
  parentID : Option Int
deriving DecidableEq, Repr

/-- `dto.UpdateDepartmentRequest`. -/
structure UpdateDepartmentRequest where
  name : Option String
  parentID : Option Int
deriving DecidableEq, Repr

/-- `dto.DeleteDepartmentQuery`. -/
structure DeleteDepartmentQuery where
  mode : String
  reassignToDepartmentID : Option Int
deriving DecidableEq, Repr

/-- `dto.GetDepartmentQuery`. -/
structure GetDepartmentQuery where
  depth : Int
  includeEmployees : Bool
deriving DecidableEq, Repr

/-! ## Business layer (`departmentService`, internal/service/department_service.go) -/

/-- `departmentService.Create`. -/
def serviceCreate (s : Store) (req : CreateDepartmentRequest) :
    Except Err (Store × Department) :=
  let name := req.name.trim
  let parentCheck : Except Err Unit :=
    match req.parentID with
    | none => .ok ()
    | some pid =>
      match deptGetByID s pid with
      | .error e => .error e
      | .ok _ => .ok ()
  match parentCheck with
  | .error e => .error e
  | .ok _ =>
    if deptExistsByNameAndParent s name req.parentID none then
      .error .duplicateDepartmentName
    else
      .ok (deptCreateRow s name req.parentID)

/-- `departmentService.Update`.  The name block (lines 76–96) validates the
trimmed incoming name against the incoming parent when one is supplied and
against the current parent otherwise, always excluding the unit itself; the
parent block (lines 98–133) validates self-reference, parent existence and
the descendant check, re-checking the current name under the new parent only
when no new name was supplied. -/
def serviceUpdate (s : Store) (id : Int) (req : UpdateDepartmentRequest) :
    Except Err (Store × Department) :=
  match deptGetByID s id with
  | .error e => .error e
  | .ok dept0 =>
    let nameStep : Except Err Department :=
      match req.name with
      | none => .ok dept0
      | some n =>
        let name := n.trim
        let parentID : Option Int :=
          match req.parentID with
          | some _ => req.parentID
          | none => dept0.parentId
        if deptExistsByNameAndParent s name parentID (some id) then
          .error .duplicateDepartmentName
        else
          .ok { dept0 with name := name }
    match nameStep with
    | .error e => .error e
    | .ok dept1 =>
      let parentStep : Except Err Department :=
        match req.parentID with
        | none => .ok dept1
        | some newParentID =>
          if newParentID == id then .error .selfReference
          else
            match deptGetByID s newParentID with
            | .error e => .error e
            | .ok _ =>
              match deptIsDescendant s id newParentID with
              | .error e => .error e
              | .ok isDesc =>
                if isDesc then .error .cyclicReference
                else
                  let sameNameCheck : Except Err Unit :=
                    match req.name with
                    | none =>
                      if deptExistsByNameAndParent s dept1.name (some newParentID) (some id) then
                        .error .duplicateDepartmentName
                      else .ok ()
                    | some _ => .ok ()
                  match sameNameCheck with
                  | .error e => .error e
                  | .ok _ => .ok { dept1 with parentId := some newParentID }
      match parentStep with
      | .error e => .error e
      | .ok dept2 => .ok (deptUpdateRow s dept2, dept2)

/-- A write issued by the engine against the store. -/
inductive StoreWrite where
  | reassignEmployees (fromDeptId toDeptId : Int)
  | deleteDepartmentRow (id : Int)
deriving DecidableEq, Repr

/-- The `for _, descID := range descendants` loop of `Delete(reassign)`:
one bulk reassignment per descendant, applied in order; also records the
writes issued. -/
def reassignDescendants (targetID : Int) : Store → List Int → Store × List StoreWrite
  | s, [] => (s, [])
  | s, descID :: rest =>
    let s1 := empReassignToDepartment s descID targetID
    let (s2, ws) := reassignDescendants targetID s1 rest
    (s2, .reassignEmployees descID targetID :: ws)

/-- `departmentService.Delete`, instrumented with the list of store writes the
engine issues (in order).  The `dept, _ := GetByID` fetched at line 179 is
never used (`_ = dept`), so it is not modelled as a step. -/
def serviceDeleteTr (s : Store) (id : Int) (query : DeleteDepartmentQuery) :
    Except Err (Store × List StoreWrite) :=
  match deptGetByID s id with
  | .error e => .error e
  | .ok _ =>
    if query.mode == "cascade" then
      match deptDeleteCascade s id with
      | .error e => .error e
      | .ok s' => .ok (s', [.deleteDepartmentRow id])
    else if query.mode == "reassign" then
      match query.reassignToDepartmentID with
      | none => .error .reassignTargetRequired
      | some targetID =>
        if targetID == id then .error .cannotReassignToSelf
        else
          match deptGetByID s targetID with
          | .error .departmentNotFound => .error .reassignTargetNotFound
          | .error e => .error e
          | .ok _ =>
            let s1 := empReassignToDepartment s id targetID
            match deptGetAllDescendantIDs s1 id with
            | .error e => .error e
            | .ok descendants =>
              let step := reassignDescendants targetID s1 descendants
              match deptDeleteCascade step.1 id with
              | .error e => .error e
              | .ok s3 =>
                .ok (s3, .reassignEmployees id targetID :: step.2 ++ [.deleteDepartmentRow id])
    else .error .invalidDeleteMode

/-- `departmentService.Delete`: the store-state semantics (the writes list
projected away). -/
def serviceDelete (s : Store) (id : Int) (query : DeleteDepartmentQuery) :
    Except Err Store :=
  match serviceDeleteTr s id query with
  | .error e => .error e
  | .ok r => .ok r.1

/-! ## Tree projection (`GetByIDWithChildren` / `loadChildren`, part_003) -/

/-- Insertion by `createdAt` (kernel of `ORDER BY created_at ASC`). -/
def insertByCreatedAt (e : Employee) : List Employee → List Employee
  | [] => [e]
  | x :: xs =>
    if e.createdAt < x.createdAt then e :: x :: xs else x :: insertByCreatedAt e xs

/-- `ORDER BY created_at ASC` as a stable insertion sort. -/
def sortByCreatedAt : List Employee → List Employee
  | [] => []
  | x :: xs => insertByCreatedAt x (sortByCreatedAt xs)

/-- The `Preload("Employees", … Order("created_at ASC"))` of a department. -/
def employeesOf (s : Store) (deptId : Int) : List Employee :=
  sortByCreatedAt (s.emps.filter (fun e => e.departmentId == deptId))

/-- `Where("parent_id = ?", dept.ID)`. -/
def childrenDepts (s : Store) (pid : Int) : List Department :=
  s.depts.filter (fun d => d.parentId == some pid)

/-- A projected node: the department, its (optionally preloaded) employees,
and its loaded children. -/
inductive DepartmentTree where
  | node (dept : Department) (employees : List Employee) (children : List DepartmentTree)
deriving Repr

/-- `departmentRepository.loadChildren` as a tree builder: at exhausted depth
the node keeps the employees it was fetched with but loads no children;
otherwise it loads the children rows (with employees when requested) and
recurses one level shallower. -/
def loadTree (s : Store) (includeEmployees : Bool) : Nat → Department → DepartmentTree
  | 0, d => .node d (if includeEmployees then employeesOf s d.id else []) []
  | n + 1, d =>
    .node d (if includeEmployees then employeesOf s d.id else [])
      ((childrenDepts s d.id).map (loadTree s includeEmployees n))

/-- `departmentRepository.GetByIDWithChildren`: fetch the root (preloading
employees when requested), then load children when `depth > 0`; `depth.toNat`
is `0` exactly when `depth <= 0`, matching the guards in the Go code. -/
def deptGetByIDWithChildren (s : Store) (id : Int) (depth : Int)
    (includeEmployees : Bool) : Except Err DepartmentTree :=
  match findDept s id with
  | none => .error .departmentNotFound
  | some d => .ok (loadTree s includeEmployees depth.toNat d)

/-- `departmentService.GetByID`. -/
def serviceGetByID (s : Store) (id : Int) (query : GetDepartmentQuery) :
    Except Err DepartmentTree :=
  deptGetByIDWithChildren s id query.depth query.includeEmployees

/-! ## Handler query parsing (`DepartmentHandler`, src/unnamed/part_004) -/

/-- The raw query string of a GET request: `depth` holds the value of a
successfully parsed `depth` parameter (`none` when the parameter is absent or
`strconv.Atoi` fails, both of which leave the default), `includeEmployees`
holds the raw `include_employees` parameter when present. -/
structure RawGetQuery where
  depth : Option Int
  includeEmployees : Option String
deriving DecidableEq, Repr

/-- `DepartmentHandler.parseGetQuery`: defaults `Depth = 1`,
`IncludeEmployees = true`; a parsed `depth` overrides the default verbatim
(no clamping); a present `include_employees` sets the flag to the comparison
with the literal string. -/
def parseGetQuery (raw : RawGetQuery) : GetDepartmentQuery :=
  let q0 : GetDepartmentQuery := { depth := 1, includeEmployees := true }
  let q1 : GetDepartmentQuery :=
    match raw.depth with
    | some d => { q0 with depth := d }
    | none => q0
  match raw.includeEmployees with
  | some v => { q1 with includeEmployees := v == "true" }
  | none => q1

/-- The `validator` tags on `dto.GetDepartmentQuery`: `Depth` carries
`validate:"min=1,max=5"`. -/
def validateGetQuery (q : GetDepartmentQuery) : Bool :=
  1 ≤ q.depth && q.depth ≤ 5

/-- Outcome of a handler: a value, a 400 validation rejection, or a service
error. -/
inductive HandlerResult (α : Type) where
  | ok (a : α)
  | validationError
  | serviceError (e : Err)

/-- `DepartmentHandler.GetByID` after the id was extracted: parse the query,
reject on validation failure, otherwise call the service. -/
def handlerGetByID (s : Store) (id : Int) (raw : RawGetQuery) :
    HandlerResult DepartmentTree :=
  let query := parseGetQuery raw
  if !validateGetQuery query then .validationError
  else
    match serviceGetByID s id query with
    | .error e => .serviceError e
    | .ok t => .ok t

/-! ## Fault-injected delete (for the atomicity analysis)

`departmentService.Delete` issues its store writes directly on the gorm
handle (`r.db.WithContext(ctx)….Update/Delete`); there is no surrounding
`db.Transaction` anywhere in the repository or service code, so a write that
has returned before a later step fails stays applied.  `serviceDeleteFaulty`
mirrors `Delete` with a failure oracle: a write in the failing set returns a
store error (which the service propagates) instead of being applied; the
second component of the result is the state the store is left in. -/

/-- The descendant loop under fault injection: stops at the first failing
write, keeping all earlier ones. -/
def reassignDescendantsFaulty (fail : StoreWrite → Bool) (targetID : Int) :
    Store → List Int → Except Err Unit × Store
  | s, [] => (.ok (), s)
  | s, descID :: rest =>
    if fail (.reassignEmployees descID targetID) then (.error .storeFailure, s)
    else reassignDescendantsFaulty fail targetID
      (empReassignToDepartment s descID targetID) rest

/-- `departmentService.Delete` under the fault oracle `fail`; returns the
service result and the final store state. -/
def serviceDeleteFaulty (fail : StoreWrite → Bool) (s : Store) (id : Int)
    (query : DeleteDepartmentQuery) : Except Err Unit × Store :=
  match deptGetByID s id with
  | .error e => (.error e, s)
  | .ok _ =>
    if query.mode == "cascade" then
      if fail (.deleteDepartmentRow id) then (.error .storeFailure, s)
      else
        match deptDeleteCascade s id with
        | .error e => (.error e, s)
        | .ok s' => (.ok (), s')
    else if query.mode == "reassign" then
      match query.reassignToDepartmentID with
      | none => (.error .reassignTargetRequired, s)
      | some targetID =>
        if targetID == id then (.error .cannotReassignToSelf, s)
        else
          match deptGetByID s targetID with
          | .error .departmentNotFound => (.error .reassignTargetNotFound, s)
          | .error e => (.error e, s)
          | .ok _ =>
            if fail (.reassignEmployees id targetID) then (.error .storeFailure, s)
            else
              let s1 := empReassignToDepartment s id targetID
              match deptGetAllDescendantIDs s1 id with
              | .error e => (.error e, s1)
              | .ok descendants =>
                match reassignDescendantsFaulty fail targetID s1 descendants with
                | (.error e, s2) => (.error e, s2)
                | (.ok _, s2) =>
                  if fail (.deleteDepartmentRow id) then (.error .storeFailure, s2)
                  else
                    match deptDeleteCascade s2 id with
                    | .error e => (.error e, s2)
                    | .ok s3 => (.ok (), s3)
    else (.error .invalidDeleteMode, s)

/-! ## Parent chains and acyclicity

`chainTo s x fuel` follows parent references from `x` upward, returning the
list of visited ids (ending at a root) when the walk terminates within
`fuel` lookups.  A terminating walk never revisits a row (otherwise it would
loop), so its length is at most the number of departments and fuel
`s.depts.length + 1` decides termination. -/

/-- The parent walk from `x`, with fuel. -/
def chainTo (s : Store) : Int → Nat → Option (List Int)
  | _, 0 => none
  | x, fuel + 1 =>
    match findDept s x with
    | none => none
    | some d =>
      match d.parentId with
      | none => some [x]
      | some p =>
        match chainTo s p fuel with
        | none => none
        | some l => some (x :: l)

/-- The spec's acyclicity invariant: following parent references from every
Unit terminates at a root. -/
def Acyclic (s : Store) : Bool :=
  s.depts.all (fun d => (chainTo s d.id (s.depts.length + 1)).isSome)

/-- `Links s l`: `l` is a step-by-step valid parent walk ending at a root. -/
inductive Links (s : Store) : List Int → Prop
  | root (x : Int) (d : Department) :
      findDept s x = some d → d.parentId = none → Links s [x]
  | cons (x y : Int) (d : Department) (rest : List Int) :
      findDept s x = some d → d.parentId = some y → Links s (y :: rest) →
      Links s (x :: y :: rest)

theorem chainTo_succ_inv (s : Store) {x : Int} {n : Nat} {l : List Int}
    (h : chainTo s x (n + 1) = some l) :
    ∃ d, findDept s x = some d ∧
      ((d.parentId = none ∧ l = [x]) ∨
        ∃ p m, d.parentId = some p ∧ chainTo s p n = some m ∧ l = x :: m) := by
  unfold chainTo at h
  rcases hf : findDept s x with _ | d
  · simp [hf] at h
  · simp only [hf] at h
    refine ⟨d, rfl, ?_⟩
    rcases hp : d.parentId with _ | p
    · simp only [hp] at h
      exact Or.inl ⟨rfl, (Option.some.inj h).symm⟩
    · simp only [hp] at h
      rcases hc : chainTo s p n with _ | m
      · simp [hc] at h
      · simp only [hc] at h
        exact Or.inr ⟨p, m, rfl, hc, (Option.some.inj h).symm⟩

theorem chainTo_root (s : Store) {x : Int} {n : Nat} {d : Department}
    (hf : findDept s x = some d) (hp : d.parentId = none) :
    chainTo s x (n + 1) = some [x] := by
  unfold chainTo; simp only [hf, hp]

theorem chainTo_cons (s : Store) {x p : Int} {n : Nat} {d : Department} {m : List Int}
    (hf : findDept s x = some d) (hp : d.parentId = some p)
    (hc : chainTo s p n = some m) :
    chainTo s x (n + 1) = some (x :: m) := by
  unfold chainTo; simp only [hf, hp, hc]

theorem chainTo_head (s : Store) :
    ∀ fuel x l, chainTo s x fuel = some l → ∃ t, l = x :: t := by
  intro fuel x l h
  match fuel with
  | 0 => simp [chainTo] at h
  | n + 1 =>
    obtain ⟨d, _, hcase⟩ := chainTo_succ_inv s h
    rcases hcase with ⟨_, rfl⟩ | ⟨p, m, _, _, rfl⟩
    · exact ⟨[], rfl⟩
    · exact ⟨m, rfl⟩

theorem chainTo_links (s : Store) :
    ∀ fuel x l, chainTo s x fuel = some l → Links s l := by
  intro fuel
  induction fuel with
  | zero => intro x l h; simp [chainTo] at h
  | succ n ih =>
    intro x l h
    obtain ⟨d, hf, hcase⟩ := chainTo_succ_inv s h
    rcases hcase with ⟨hp, rfl⟩ | ⟨p, m, hp, hc, rfl⟩
    · exact Links.root x d hf hp
    · obtain ⟨t, ht⟩ := chainTo_head s n p m hc
      subst ht
      exact Links.cons x p d t hf hp (ih p (p :: t) hc)

theorem links_chainTo (s : Store) {l : List Int} (hl : Links s l) :
    ∀ x fuel, l.headI = x → l.length ≤ fuel → chainTo s x fuel = some l := by
  induction hl with
  | root y d hf hp =>
    intro x fuel hx hlen
    simp at hx
    subst hx
    match fuel, hlen with
    | n + 1, _ => exact chainTo_root s hf hp
  | cons y z d rest hf hp _ ih =>
    intro x fuel hx hlen
    simp at hx
    subst hx
    match fuel, hlen with
    | n + 1, hlen =>
      exact chainTo_cons s hf hp (ih z n (by simp) (by simpa using hlen))

theorem chainTo_length_le (s : Store) :
    ∀ fuel x l, chainTo s x fuel = some l → l.length ≤ fuel := by
  intro fuel
  induction fuel with
  | zero => intro x l h; simp [chainTo] at h
  | succ n ih =>
    intro x l h
    obtain ⟨d, _, hcase⟩ := chainTo_succ_inv s h
    rcases hcase with ⟨_, rfl⟩ | ⟨p, m, _, hc, rfl⟩
    · simp
    · simpa using ih p m hc

theorem chainTo_mono (s : Store) :
    ∀ fuel x l g, chainTo s x fuel = some l → fuel ≤ g → chainTo s x g = some l := by
  intro fuel x l g h hle
  have hl := chainTo_links s fuel x l h
  obtain ⟨t, ht⟩ := chainTo_head s fuel x l h
  have hlen := chainTo_length_le s fuel x l h
  exact links_chainTo s hl x g (by rw [ht]; simp) (le_trans hlen hle)

theorem chainTo_unique (s : Store) {x f g l m}
    (hf : chainTo s x f = some l) (hg : chainTo s x g = some m) : l = m := by
  have h1 := chainTo_mono s f x l (max f g) hf (le_max_left _ _)
  have h2 := chainTo_mono s g x m (max f g) hg (le_max_right _ _)
  rw [h1] at h2
  simpa using h2

theorem links_suffix (s : Store) {l : List Int} (hl : Links s l) :
    ∀ a y b, l = a ++ y :: b → Links s (y :: b) := by
  induction hl with
  | root x d hf hp =>
    intro a y b heq
    cases a with
    | nil =>
      simp at heq
      obtain ⟨rfl, rfl⟩ := heq
      exact Links.root x d hf hp
    | cons a0 a' => simp at heq
  | cons x z d rest hf hp hrest ih =>
    intro a y b heq
    cases a with
    | nil =>
      simp at heq
      obtain ⟨rfl, rfl⟩ := heq
      exact Links.cons x z d rest hf hp hrest
    | cons a0 a' =>
      simp at heq
      exact ih a' y b heq.2

theorem links_mem_row (s : Store) {l : List Int} (hl : Links s l) :
    ∀ y ∈ l, ∃ d, findDept s y = some d := by
  induction hl with
  | root x d hf _ =>
    intro y hy
    simp at hy
    exact ⟨d, hy ▸ hf⟩
  | cons x z d rest hf _ _ ih =>
    intro y hy
    rcases List.mem_cons.mp hy with rfl | hy'
    · exact ⟨d, hf⟩
    · exact ih y hy'

theorem findDept_mem {s : Store} {y : Int} {d : Department}
    (h : findDept s y = some d) : d ∈ s.depts ∧ d.id = y := by
  refine ⟨List.mem_of_find?_eq_some h, ?_⟩
  have := List.find?_some h
  simpa using this

theorem chainTo_nodup (s : Store) :
    ∀ fuel x l, chainTo s x fuel = some l → l.Nodup := by
  intro fuel
  induction fuel with
  | zero => intro x l h; simp [chainTo] at h
  | succ n ih =>
    intro x l h
    obtain ⟨d, hf, hcase⟩ := chainTo_succ_inv s h
    rcases hcase with ⟨_, rfl⟩ | ⟨p, m, hp, hc, rfl⟩
    · simp
    · refine List.nodup_cons.mpr ⟨?_, ih p m hc⟩
      intro hxm
      obtain ⟨a, b, rfl⟩ := List.append_of_mem hxm
      have hsuf : Links s (x :: b) :=
        links_suffix s (chainTo_links s n p _ hc) a x b rfl
      have h1 : chainTo s x (b.length + 1) = some (x :: b) :=
        links_chainTo s hsuf x (b.length + 1) (by simp) (by simp)
      have h2 : chainTo s x (n + 1) = some (x :: (a ++ x :: b)) := by
        exact chainTo_cons s hf hp hc
      have := chainTo_unique s h1 h2
      have hlen := congrArg List.length this
      simp at hlen
      omega

theorem nodup_subset_length {l ids : List Int} (hn : l.Nodup)
    (hs : ∀ y ∈ l, y ∈ ids) : l.length ≤ ids.length := by
  classical
  calc l.length = l.toFinset.card := (List.toFinset_card_of_nodup hn).symm
    _ ≤ ids.toFinset.card := Finset.card_le_card (fun y hy => by
        rw [List.mem_toFinset] at hy ⊢; exact hs y hy)
    _ ≤ ids.length := ids.toFinset_card_le

theorem chain_subset_ids (s : Store) {fuel : Nat} {x : Int} {l : List Int}
    (h : chainTo s x fuel = some l) :
    ∀ y ∈ l, y ∈ s.depts.map (fun d => d.id) := by
  intro y hy
  obtain ⟨d, hd⟩ := links_mem_row s (chainTo_links s fuel x l h) y hy
  obtain ⟨hmem, hid⟩ := findDept_mem hd
  exact List.mem_map.mpr ⟨d, hmem, hid⟩

theorem chain_length_le_depts (s : Store) {fuel : Nat} {x : Int} {l : List Int}
    (h : chainTo s x fuel = some l) : l.length ≤ s.depts.length := by
  have := nodup_subset_length (chainTo_nodup s fuel x l h) (chain_subset_ids s h)
  simpa using this

theorem find?_eq_of_nodup_key {l : List Department}
    (hn : (l.map (fun d => d.id)).Nodup) {d : Department} (hd : d ∈ l) :
    l.find? (fun e => e.id == d.id) = some d := by
  induction l with
  | nil => simp at hd
  | cons x t ih =>
    simp only [List.map_cons, List.nodup_cons] at hn
    rcases List.mem_cons.mp hd with rfl | hdt
    · simp [List.find?]
    · have hx : (x.id == d.id) = false := by
        have : d.id ∈ t.map (fun e => e.id) := List.mem_map.mpr ⟨d, hdt, rfl⟩
        simp only [beq_eq_false_iff_ne, ne_eq]
        intro hcontra
        exact hn.1 (hcontra ▸ this)
      rw [List.find?_cons_of_neg _ (by simp [hx]), ih hn.2 hdt]

theorem findDept_of_mem {s : Store} (hwf : s.WF) {d : Department}
    (hd : d ∈ s.depts) : findDept s d.id = some d :=
  find?_eq_of_nodup_key hwf hd

theorem acyclic_chain {s : Store} (hac : Acyclic s = true) {d : Department}
    (hd : d ∈ s.depts) :
    ∃ l, chainTo s d.id (s.depts.length + 1) = some l := by
  have := List.all_eq_true.mp hac d hd
  exact Option.isSome_iff_exists.mp this

theorem mem_childrenOfIDs {s : Store} {ids : List Int} {x : Int} :
    x ∈ childrenOfIDs s ids ↔
      ∃ d ∈ s.depts, d.id = x ∧ ∃ p, d.parentId = some p ∧ p ∈ ids := by
  constructor
  · intro hx
    obtain ⟨d, hdf, rfl⟩ := List.mem_map.mp hx
    obtain ⟨hdm, hpred⟩ := List.mem_filter.mp hdf
    rcases hp : d.parentId with _ | p
    · rw [hp] at hpred; simp at hpred
    · rw [hp] at hpred
      exact ⟨d, hdm, rfl, p, hp, by simpa using hpred⟩
  · rintro ⟨d, hdm, rfl, p, hp, hpids⟩
    refine List.mem_map.mpr ⟨d, List.mem_filter.mpr ⟨hdm, ?_⟩, rfl⟩
    rw [hp]
    simpa using hpids

theorem mem_descLevel_row {s : Store} {u x : Int} :
    ∀ {k : Nat}, x ∈ descLevel s u k → ∃ d ∈ s.depts, d.id = x := by
  intro k hx
  cases k with
  | zero =>
    obtain ⟨d, hdm, hid, _⟩ := mem_childrenOfIDs.mp hx
    exact ⟨d, hdm, hid⟩
  | succ n =>
    obtain ⟨d, hdm, hid, _⟩ := mem_childrenOfIDs.mp hx
    exact ⟨d, hdm, hid⟩

theorem mem_descLevel_chain (s : Store) (hwf : s.WF) (u : Int) :
    ∀ k x, x ∈ descLevel s u k →
      ∀ fuel l, chainTo s x fuel = some l → u ∈ l.tail ∧ k + 2 ≤ l.length := by
  intro k
  induction k with
  | zero =>
    intro x hx fuel l hl
    obtain ⟨d, hdm, hid, p, hp, hpu⟩ := mem_childrenOfIDs.mp hx
    have hpu' : p = u := by simpa using hpu
    match fuel with
    | 0 => simp [chainTo] at hl
    | n + 1 =>
      obtain ⟨d', hf', hcase⟩ := chainTo_succ_inv s hl
      have hd' : d' = d := by
        rw [← hid, findDept_of_mem hwf hdm] at hf'
        exact (Option.some.inj hf').symm
      rcases hcase with ⟨hnone, _⟩ | ⟨q, m, hq, hc, rfl⟩
      · rw [hd', hp] at hnone; simp at hnone
      · rw [hd', hp] at hq
        have hqu : q = u := by
          have hpq : p = q := Option.some.inj hq
          rw [← hpq]; exact hpu'
        obtain ⟨t, ht⟩ := chainTo_head s _ _ _ hc
        subst ht
        exact ⟨List.mem_cons.mpr (Or.inl hqu.symm), by simp⟩
  | succ n ih =>
    intro x hx fuel l hl
    obtain ⟨d, hdm, hid, p, hp, hpn⟩ := mem_childrenOfIDs.mp hx
    match fuel with
    | 0 => simp [chainTo] at hl
    | f + 1 =>
      obtain ⟨d', hf', hcase⟩ := chainTo_succ_inv s hl
      have hd' : d' = d := by
        rw [← hid, findDept_of_mem hwf hdm] at hf'
        exact (Option.some.inj hf').symm
      rcases hcase with ⟨hnone, _⟩ | ⟨q, m, hq, hc, rfl⟩
      · rw [hd', hp] at hnone; simp at hnone
      · rw [hd', hp] at hq
        have hpq : p = q := Option.some.inj hq
        obtain ⟨hmem, hlen⟩ := ih q (hpq ▸ hpn) f m hc
        refine ⟨?_, by simp at hlen ⊢; omega⟩
        simp only [List.tail_cons]
        exact List.mem_of_mem_tail hmem

theorem acyclic_descLevel_empty (s : Store) (hwf : s.WF) (hac : Acyclic s = true)
    (u : Int) : descLevel s u s.depts.length = [] := by
  by_contra h
  obtain ⟨x, hx⟩ := List.exists_mem_of_ne_nil _ h
  obtain ⟨d, hdm, hid⟩ := mem_descLevel_row hx
  obtain ⟨l, hl⟩ := acyclic_chain hac hdm
  rw [hid] at hl
  obtain ⟨_, hlen⟩ := mem_descLevel_chain s hwf u _ x hx _ l hl
  have := chain_length_le_depts s hl
  omega

theorem acyclic_gad_ok (s : Store) (hwf : s.WF) (hac : Acyclic s = true) (u : Int) :
    deptGetAllDescendantIDs s u = .ok (gadLevelsUnion s u) := by
  unfold deptGetAllDescendantIDs
  rw [acyclic_descLevel_empty s hwf hac u]
  simp

theorem acyclic_not_mem_gad_self (s : Store) (hwf : s.WF) (hac : Acyclic s = true)
    (u : Int) : u ∉ gadLevelsUnion s u := by
  intro hmem
  obtain ⟨k, _, hk⟩ := List.mem_flatMap.mp hmem
  obtain ⟨d, hdm, hid⟩ := mem_descLevel_row hk
  obtain ⟨l, hl⟩ := acyclic_chain hac hdm
  rw [hid] at hl
  obtain ⟨htail, _⟩ := mem_descLevel_chain s hwf u _ u hk _ l hl
  obtain ⟨t, rfl⟩ := chainTo_head s _ _ _ hl
  have hnd := chainTo_nodup s _ _ _ hl
  simp only [List.tail_cons] at htail
  exact (List.nodup_cons.mp hnd).1 htail

theorem chain_tail_mem_descLevel (s : Store) :
    ∀ fuel x l, chainTo s x fuel = some l → ∀ u, u ∈ l.tail →
      ∃ k, x ∈ descLevel s u k ∧ k + 2 ≤ l.length := by
  intro fuel
  induction fuel with
  | zero => intro x l h; simp [chainTo] at h
  | succ n ih =>
    intro x l h u hu
    obtain ⟨d, hf, hcase⟩ := chainTo_succ_inv s h
    rcases hcase with ⟨_, rfl⟩ | ⟨p, m, hp, hc, rfl⟩
    · simp at hu
    · simp only [List.tail_cons] at hu
      obtain ⟨hdm, hid⟩ := findDept_mem hf
      obtain ⟨t, rfl⟩ := chainTo_head s _ _ _ hc
      rcases List.mem_cons.mp hu with rfl | hut
      · refine ⟨0, ?_, by simp⟩
        exact mem_childrenOfIDs.mpr ⟨d, hdm, hid, u, hp, by simp⟩
      · obtain ⟨k, hk, hlen⟩ := ih p _ hc u hut
        refine ⟨k + 1, ?_, by simp at hlen ⊢; omega⟩
        exact mem_childrenOfIDs.mpr ⟨d, hdm, hid, p, hp, hk⟩

theorem chain_tail_mem_gadUnion (s : Store) {fuel : Nat} {x : Int} {l : List Int}
    (h : chainTo s x fuel = some l) {u : Int} (hu : u ∈ l.tail) :
    x ∈ gadLevelsUnion s u := by
  obtain ⟨k, hk, hlen⟩ := chain_tail_mem_descLevel s fuel x l h u hu
  have hle := chain_length_le_depts s h
  exact List.mem_flatMap.mpr ⟨k, List.mem_range.mpr (by omega), hk⟩

/-! ## Transfer lemmas between store states -/

/-- The parent information visible at id `x`. -/
def parentView (s : Store) (x : Int) : Option (Option Int) :=
  (findDept s x).map (fun d => d.parentId)

theorem links_transfer {s s' : Store} {l : List Int}
    (hl : Links s l) (h : ∀ y ∈ l, parentView s' y = parentView s y) :
    Links s' l := by
  induction hl with
  | root x d hf hp =>
    have hx := h x (by simp)
    rw [parentView, parentView, hf] at hx
    rcases hf' : findDept s' x with _ | d'
    · rw [hf'] at hx; simp at hx
    · rw [hf'] at hx
      simp at hx
      exact Links.root x d' hf' (by rw [hx, hp])
  | cons x z d rest hf hp _ ih =>
    have hx := h x (by simp)
    rw [parentView, parentView, hf] at hx
    rcases hf' : findDept s' x with _ | d'
    · rw [hf'] at hx; simp at hx
    · rw [hf'] at hx
      simp at hx
      exact Links.cons x z d' rest hf' (by rw [hx, hp])
        (ih (fun y hy => h y (List.mem_cons_of_mem x hy)))

theorem findDept_congr {s s' : Store} (h : s'.depts = s.depts) (x : Int) :
    findDept s' x = findDept s x := by
  unfold findDept; rw [h]

theorem chainTo_congr {s s' : Store} (h : s'.depts = s.depts) :
    ∀ fuel x, chainTo s' x fuel = chainTo s x fuel := by
  intro fuel
  induction fuel with
  | zero => intro x; rfl
  | succ n ih =>
    intro x
    unfold chainTo
    rw [findDept_congr h]
    simp only [ih]

theorem childrenOfIDs_congr {s s' : Store} (h : s'.depts = s.depts)
    (ids : List Int) : childrenOfIDs s' ids = childrenOfIDs s ids := by
  unfold childrenOfIDs; rw [h]

theorem descLevel_congr {s s' : Store} (h : s'.depts = s.depts) (u : Int) :
    ∀ k, descLevel s' u k = descLevel s u k := by
  intro k
  induction k with
  | zero => exact childrenOfIDs_congr h [u]
  | succ n ih => rw [descLevel, ih, descLevel, childrenOfIDs_congr h]

theorem gadLevelsUnion_congr {s s' : Store} (h : s'.depts = s.depts) (u : Int) :
    gadLevelsUnion s' u = gadLevelsUnion s u := by
  unfold gadLevelsUnion
  rw [h]
  exact List.flatMap_congr (fun k _ => descLevel_congr h u k)

theorem acyclic_congr {s s' : Store} (h : s'.depts = s.depts) :
    Acyclic s' = Acyclic s := by
  unfold Acyclic
  rw [h]
  congr 1
  funext d
  rw [chainTo_congr h]

/-- Reassignments touch only employee rows. -/
theorem empReassign_depts (s : Store) (f t : Int) :
    (empReassignToDepartment s f t).depts = s.depts := rfl

theorem reassignDescendants_depts (t : Int) :
    ∀ s ds, (reassignDescendants t s ds).1.depts = s.depts := by
  intro s ds
  induction ds generalizing s with
  | nil => rfl
  | cons d rest ih => simpa [reassignDescendants] using ih (empReassignToDepartment s d t)

/-! ## Lookup behaviour under each store mutation -/

theorem find?_append_of_some {p : Department → Bool} {l₁ l₂ : List Department}
    {r : Department} (h : l₁.find? p = some r) : (l₁ ++ l₂).find? p = some r := by
  induction l₁ with
  | nil => simp [List.find?] at h
  | cons x t ih =>
    by_cases hp : p x
    · rw [List.find?_cons_of_pos _ hp] at h
      rw [List.cons_append, List.find?_cons_of_pos _ hp]
      exact h
    · rw [List.find?_cons_of_neg _ hp] at h
      rw [List.cons_append, List.find?_cons_of_neg _ hp]
      exact ih h

theorem find?_filter_of_some {p q : Department → Bool} {l : List Department}
    {r : Department} (h : l.find? p = some r) (hq : q r = true) :
    (l.filter q).find? p = some r := by
  induction l with
  | nil => simp [List.find?] at h
  | cons x t ih =>
    by_cases hp : p x
    · rw [List.find?_cons_of_pos _ hp] at h
      have hrx : r = x := (Option.some.inj h).symm
      rw [List.filter_cons_of_pos (hrx ▸ hq), List.find?_cons_of_pos _ hp, hrx]
    · rw [List.find?_cons_of_neg _ hp] at h
      by_cases hqx : q x
      · rw [List.filter_cons_of_pos hqx, List.find?_cons_of_neg _ hp]
        exact ih h
      · rw [List.filter_cons_of_neg (by simpa using hqx)]
        exact ih h

theorem find?_map_replace_other {l : List Department} {dept : Department} {y : Int}
    (hy : y ≠ dept.id) :
    (l.map (fun d => if d.id == dept.id then dept else d)).find? (fun d => d.id == y)
      = l.find? (fun d => d.id == y) := by
  induction l with
  | nil => rfl
  | cons x t ih =>
    by_cases hxd : x.id = dept.id
    · rw [List.map_cons, if_pos (by simp [hxd]),
        List.find?_cons_of_neg _ (by simp; exact fun hc => hy hc.symm),
        List.find?_cons_of_neg _ (by rw [hxd]; simp; exact fun hc => hy hc.symm)]
      exact ih
    · rw [List.map_cons, if_neg (by simp [hxd])]
      by_cases hxy : x.id = y
      · rw [List.find?_cons_of_pos _ (by simp [hxy]),
          List.find?_cons_of_pos _ (by simp [hxy])]
      · rw [List.find?_cons_of_neg _ (by simp [hxy]),
          List.find?_cons_of_neg _ (by simp [hxy])]
        exact ih

theorem find?_map_replace_self {l : List Department} {dept r : Department}
    (hr : l.find? (fun d => d.id == dept.id) = some r) :
    (l.map (fun d => if d.id == dept.id then dept else d)).find?
      (fun d => d.id == dept.id) = some dept := by
  induction l with
  | nil => simp [List.find?] at hr
  | cons x t ih =>
    by_cases hxd : x.id = dept.id
    · rw [List.map_cons, if_pos (by simp [hxd]), List.find?_cons_of_pos _ (by simp)]
    · rw [List.find?_cons_of_neg _ (by simp [hxd])] at hr
      rw [List.map_cons, if_neg (by simp [hxd]),
        List.find?_cons_of_neg _ (by simp [hxd])]
      exact ih hr

/-- Replacing the row keyed `dept.id` leaves every other lookup unchanged. -/
theorem findDept_updateRow_other (s : Store) (dept : Department) {y : Int}
    (hy : y ≠ dept.id) : findDept (deptUpdateRow s dept) y = findDept s y := by
  unfold deptUpdateRow findDept
  by_cases hex : s.depts.any (fun d => d.id == dept.id)
  · rw [if_pos hex]
    exact find?_map_replace_other hy
  · rw [if_neg hex]
    show (s.depts ++ [dept]).find? (fun d => d.id == y) = _
    rcases hf : s.depts.find? (fun d => d.id == y) with _ | r
    · rw [List.find?_append, hf]
      have hne : (dept.id == y) = false := by
        simp
        exact fun hc => hy hc.symm
      simp [List.find?, hne]
    · rw [hf]
      exact find?_append_of_some hf

/-- Replacing the row keyed `dept.id` makes lookup of that key return the new
row, provided the key was present. -/
theorem findDept_updateRow_self (s : Store) (dept : Department) {r : Department}
    (hr : findDept s dept.id = some r) :
    findDept (deptUpdateRow s dept) dept.id = some dept := by
  unfold deptUpdateRow findDept
  have hex : s.depts.any (fun d => d.id == dept.id) := by
    obtain ⟨hmem, hid⟩ := findDept_mem hr
    exact List.any_eq_true.mpr ⟨r, hmem, by simp [hid]⟩
  rw [if_pos hex]
  exact find?_map_replace_self hr

/-- The ids of the rows are untouched by a `Save` of an existing key. -/
theorem updateRow_ids (s : Store) (dept : Department)
    (hex : s.depts.any (fun d => d.id == dept.id)) :
    (deptUpdateRow s dept).depts.map (fun d => d.id) = s.depts.map (fun d => d.id) := by
  unfold deptUpdateRow
  simp only [hex, if_true, List.map_map]
  apply List.map_congr_left
  intro x _
  by_cases hxd : x.id = dept.id
  · simp [hxd]
  · simp [hxd]

/-! ## Fresh key generation -/

theorem init_le_foldl_max : ∀ (l : List Int) (a : Int), a ≤ l.foldl max a := by
  intro l
  induction l with
  | nil => intro a; simp
  | cons b t ih =>
    intro a
    calc a ≤ max a b := le_max_left a b
      _ ≤ t.foldl max (max a b) := ih (max a b)

theorem mem_le_foldl_max : ∀ (l : List Int) (a x : Int), x ∈ l → x ≤ l.foldl max a := by
  intro l
  induction l with
  | nil => intro a x h; simp at h
  | cons b t ih =>
    intro a x h
    rcases List.mem_cons.mp h with rfl | ht
    · calc x ≤ max a x := le_max_right a x
        _ ≤ t.foldl max (max a x) := init_le_foldl_max t (max a x)
        _ = (x :: t).foldl max a := rfl
    · exact ih (max a b) x ht

theorem freshDeptId_not_key (s : Store) : ∀ d ∈ s.depts, d.id ≠ freshDeptId s := by
  intro d hd
  have : d.id ≤ (s.depts.map (fun e => e.id)).foldl max 0 :=
    mem_le_foldl_max _ 0 d.id (List.mem_map.mpr ⟨d, hd, rfl⟩)
  unfold freshDeptId
  omega

/-! ## Wellformedness preservation -/

theorem WF_append_fresh {s : Store} (hwf : s.WF) {nd : Department}
    (hfresh : ∀ d ∈ s.depts, d.id ≠ nd.id) :
    Store.WF { s with depts := s.depts ++ [nd] } := by
  unfold Store.WF at hwf ⊢
  simp only [List.map_append, List.map_cons, List.map_nil]
  rw [List.nodup_append]
  refine ⟨hwf, List.nodup_singleton _, ?_⟩
  intro y hy
  obtain ⟨d, hd, rfl⟩ := List.mem_map.mp hy
  simp
  exact fun h => hfresh d hd h

theorem WF_updateRow {s : Store} (hwf : s.WF) (dept : Department)
    (hex : s.depts.any (fun d => d.id == dept.id)) :
    Store.WF (deptUpdateRow s dept) := by
  unfold Store.WF
  rw [updateRow_ids s dept hex]
  exact hwf

theorem WF_filter {s : Store} (hwf : s.WF) (q : Department → Bool)
    (emps' : List Employee) :
    Store.WF { depts := s.depts.filter q, emps := emps' } := by
  unfold Store.WF at hwf ⊢
  exact List.Nodup.sublist ((List.filter_sublist s.depts).map (fun d => d.id)) hwf

/-! ## Acyclicity preservation: insert -/

theorem parentView_append_of_row {s : Store} (nd : Department) {y : Int}
    {r : Department} (hr : findDept s y = some r) :
    parentView { s with depts := s.depts ++ [nd] } y = parentView s y := by
  unfold parentView findDept
  unfold findDept at hr
  show ((s.depts ++ [nd]).find? (fun d => d.id == y)).map _ = _
  rw [find?_append_of_some hr, hr]

theorem acyclic_createRow (s : Store) (hac : Acyclic s = true)
    (name : String) (parentId : Option Int)
    (hpar : ∀ p, parentId = some p → ∃ r, findDept s p = some r) :
    Acyclic (deptCreateRow s name parentId).1 = true := by
  set nd : Department :=
    { id := freshDeptId s, name := name, parentId := parentId, createdAt := 0 } with hnd
  have hs' : (deptCreateRow s name parentId).1 = { s with depts := s.depts ++ [nd] } := rfl
  rw [hs']
  set s' : Store := { s with depts := s.depts ++ [nd] } with hsdef
  have hlen : s'.depts.length = s.depts.length + 1 := by simp [hsdef]
  have hfresh := freshDeptId_not_key s
  have hfind_new : findDept s' (freshDeptId s) = some nd := by
    have hnone : findDept s (freshDeptId s) = none := by
      rcases hf : findDept s (freshDeptId s) with _ | r
      · rfl
      · obtain ⟨hmem, hid⟩ := findDept_mem hf
        exact absurd hid (hfresh r hmem)
    unfold findDept at hnone ⊢
    show (s.depts ++ [nd]).find? (fun d => d.id == freshDeptId s) = some nd
    rw [List.find?_append, hnone]
    simp [List.find?, hnd]
  have htransfer : ∀ l, Links s l → Links s' l := by
    intro l hl
    refine links_transfer hl ?_
    intro y hy
    obtain ⟨r, hr⟩ := links_mem_row s hl y hy
    exact parentView_append_of_row nd hr
  rw [Acyclic, List.all_eq_true]
  intro d' hd'
  rw [hlen]
  rcases (by simpa [hsdef] using hd' : d' ∈ s.depts ∨ d' = nd) with hmem | hnew
  · obtain ⟨l, hl⟩ := acyclic_chain hac hmem
    obtain ⟨t, ht⟩ := chainTo_head s _ _ _ hl
    have hlink := htransfer l (chainTo_links s _ _ _ hl)
    have := links_chainTo s' hlink d'.id (s.depts.length + 1 + 1)
      (by rw [ht]; simp) (le_trans (chainTo_length_le s _ _ _ hl) (by omega))
    simp [this]
  · subst hnew
    rcases hpid : parentId with _ | p
    · have hlink : Links s' [nd.id] :=
        Links.root nd.id nd hfind_new (by simp [hnd, hpid])
      have := links_chainTo s' hlink nd.id (s.depts.length + 1 + 1) (by simp) (by simp)
      simp [hnd] at this ⊢
      simp [this]
    · obtain ⟨r, hr⟩ := hpar p hpid
      obtain ⟨hmem, hid⟩ := findDept_mem hr
      obtain ⟨lp, hlp⟩ := acyclic_chain hac hmem
      rw [hid] at hlp
      obtain ⟨t, ht⟩ := chainTo_head s _ _ _ hlp
      subst ht
      have hlinkp := htransfer _ (chainTo_links s _ _ _ hlp)
      have hlink : Links s' (nd.id :: p :: t) :=
        Links.cons nd.id p nd t hfind_new (by simp [hnd, hpid]) hlinkp
      have hlen2 := chainTo_length_le s _ _ _ hlp
      simp at hlen2
      have := links_chainTo s' hlink nd.id (s.depts.length + 1 + 1) (by simp)
        (by simp; omega)
      simp [hnd] at this ⊢
      simp [this]

/-! ## Acyclicity preservation: cascade removal -/

theorem acyclic_filter_removed (s : Store) (hwf : s.WF) (hac : Acyclic s = true)
    (u : Int) (emps' : List Employee) :
    Acyclic { depts := s.depts.filter (fun d => !(cascadeRemoved s u).contains d.id),
              emps := emps' } = true := by
  set q : Department → Bool := fun d => !(cascadeRemoved s u).contains d.id with hq
  set s' : Store := { depts := s.depts.filter q, emps := emps' } with hsdef
  rw [Acyclic, List.all_eq_true]
  intro d' hd'
  have hdmem : d' ∈ s.depts ∧ q d' = true := List.mem_filter.mp (by simpa [hsdef] using hd')
  have hdnotR : d'.id ∉ cascadeRemoved s u := by
    have := hdmem.2
    rw [hq] at this
    simpa using this
  obtain ⟨l, hl⟩ := acyclic_chain hac hdmem.1
  obtain ⟨t, ht⟩ := chainTo_head s _ _ _ hl
  -- the chain of a surviving department avoids the removed set entirely
  have hunotl : u ∉ l := by
    intro hul
    rcases List.mem_cons.mp (ht ▸ hul) with heq | htail
    · exact hdnotR (by rw [cascadeRemoved, heq]; simp)
    · have : d'.id ∈ gadLevelsUnion s u :=
        chain_tail_mem_gadUnion s hl (by rw [ht]; simpa using htail)
      exact hdnotR (by rw [cascadeRemoved]; simp [this])
  have havoid : ∀ y ∈ l, y ∉ cascadeRemoved s u := by
    intro y hy hyR
    rw [cascadeRemoved] at hyR
    rcases List.mem_cons.mp hyR with rfl | hygad
    · exact hunotl hy
    · -- y is a descendant of u, so u sits on y's chain, a suffix of l
      obtain ⟨k, _, hk⟩ := List.mem_flatMap.mp hygad
      obtain ⟨a, b, hab⟩ := List.append_of_mem hy
      have hsuffix : Links s (y :: b) :=
        links_suffix s (chainTo_links s _ _ _ hl) a y b hab
      have hyc : chainTo s y (b.length + 1) = some (y :: b) :=
        links_chainTo s hsuffix y (b.length + 1) (by simp) (by simp)
      obtain ⟨hmemu, _⟩ := mem_descLevel_chain s hwf u k y hk _ _ hyc
      refine hunotl ?_
      rw [hab]
      exact List.mem_append_right a (List.mem_cons_of_mem y (by simpa using hmemu))
  have hrows : ∀ y ∈ l, ∃ r, findDept s y = some r ∧ r ∈ s.depts.filter q := by
    intro y hy
    obtain ⟨r, hr⟩ := links_mem_row s (chainTo_links s _ _ _ hl) y hy
    obtain ⟨hmem, hid⟩ := findDept_mem hr
    refine ⟨r, hr, List.mem_filter.mpr ⟨hmem, ?_⟩⟩
    rw [hq]
    simp
    rw [hid]
    exact havoid y hy
  have htransfer : Links s' l := by
    refine links_transfer (chainTo_links s _ _ _ hl) ?_
    intro y hy
    obtain ⟨r, hr, hrmem⟩ := hrows y hy
    have hq' : q r = true := (List.mem_filter.mp hrmem).2
    have : findDept s' y = some r := by
      unfold findDept at hr ⊢
      show (s.depts.filter q).find? (fun d => d.id == y) = some r
      exact find?_filter_of_some hr hq'
    rw [parentView, parentView, this, hr]
  have hsubset : ∀ y ∈ l, y ∈ s'.depts.map (fun d => d.id) := by
    intro y hy
    obtain ⟨r, hr, hrmem⟩ := hrows y hy
    obtain ⟨_, hid⟩ := findDept_mem hr
    exact List.mem_map.mpr ⟨r, by simpa [hsdef] using hrmem, hid⟩
  have hlenle : l.length ≤ s'.depts.length := by
    have := nodup_subset_length (chainTo_nodup s _ _ _ hl) hsubset
    simpa using this
  have := links_chainTo s' htransfer d'.id (s'.depts.length + 1)
    (by rw [ht]; simp) (by omega)
  simp [this]

/-! ## Acyclicity preservation: row update (rename and move) -/

theorem links_cons_inv {s : Store} {x : Int} {t : List Int} (h : Links s (x :: t)) :
    ∃ d, findDept s x = some d ∧
      ((t = [] ∧ d.parentId = none) ∨
        ∃ y rest, t = y :: rest ∧ d.parentId = some y ∧ Links s t) := by
  cases h with
  | root _ d hf hp => exact ⟨d, hf, Or.inl ⟨rfl, hp⟩⟩
  | cons _ y d rest hf hp hrest => exact ⟨d, hf, Or.inr ⟨y, rest, rfl, hp, hrest⟩⟩

theorem chain_suffix_eq (s : Store) {fuel : Nat} {x : Int} {l : List Int}
    (h : chainTo s x fuel = some l) {a : List Int} {y : Int} {b : List Int}
    (hab : l = a ++ y :: b) : chainTo s y (b.length + 1) = some (y :: b) :=
  links_chainTo s (links_suffix s (chainTo_links s fuel x l h) a y b hab) y
    (b.length + 1) (by simp) (by simp)

theorem links_splice {s s' : Store} :
    ∀ (a : List Int) (u : Int) (b c : List Int),
      Links s (a ++ u :: b) → Links s' (u :: c) →
      (∀ y ∈ a, parentView s' y = parentView s y) →
      Links s' (a ++ u :: c) := by
  intro a
  induction a with
  | nil =>
    intro u b c _ h2 _
    simpa using h2
  | cons z a' ih =>
    intro u b c h1 h2 hview
    rw [List.cons_append] at h1
    obtain ⟨d, hfz, hcase⟩ := links_cons_inv h1
    rcases hcase with ⟨hemp, _⟩ | ⟨y, rest, ht, hpy, hlt⟩
    · exact absurd hemp (by simp)
    · have hrec : Links s' (a' ++ u :: c) :=
        ih u b c hlt h2 (fun w hw => hview w (List.mem_cons_of_mem z hw))
      have hvz := hview z (by simp)
      rw [parentView, parentView, hfz] at hvz
      rcases hfz' : findDept s' z with _ | d'
      · rw [hfz'] at hvz; simp at hvz
      · rw [hfz'] at hvz
        simp at hvz
        rw [List.cons_append]
        cases a' with
        | nil =>
          simp at ht
          exact Links.cons z u d' c hfz' (by rw [hvz, hpy, ht.1]) (by simpa using hrec)
        | cons w a'' =>
          simp at ht
          exact Links.cons z w d' (a'' ++ u :: c) hfz'
            (by rw [hvz, hpy, ht.1]) (by simpa using hrec)

theorem acyclic_updateRow (s : Store) (hac : Acyclic s = true)
    {dept0 dept2 : Department} (hfind : findDept s dept2.id = some dept0)
    (hpar : dept2.parentId = dept0.parentId ∨
      ∃ p r, dept2.parentId = some p ∧ findDept s p = some r ∧
        p ≠ dept2.id ∧ p ∉ gadLevelsUnion s dept2.id) :
    Acyclic (deptUpdateRow s dept2) = true := by
  have hex : s.depts.any (fun d => d.id == dept2.id) := by
    obtain ⟨hmem, hid⟩ := findDept_mem hfind
    exact List.any_eq_true.mpr ⟨dept0, hmem, by simp [hid]⟩
  set s' : Store := deptUpdateRow s dept2 with hsdef
  have hids : s'.depts.map (fun d => d.id) = s.depts.map (fun d => d.id) :=
    updateRow_ids s dept2 hex
  have hlen : s'.depts.length = s.depts.length := by
    have := congrArg List.length hids
    simpa using this
  have hself : findDept s' dept2.id = some dept2 := findDept_updateRow_self s dept2 hfind
  have hother : ∀ y, y ≠ dept2.id → findDept s' y = findDept s y := fun y hy =>
    findDept_updateRow_other s dept2 hy
  rw [Acyclic, List.all_eq_true]
  intro d' hd'
  have hid' : d'.id ∈ s.depts.map (fun d => d.id) := by
    rw [← hids]
    exact List.mem_map.mpr ⟨d', hd', rfl⟩
  obtain ⟨d, hdm, hdid⟩ := List.mem_map.mp hid'
  obtain ⟨l, hl⟩ := acyclic_chain hac hdm
  rw [hdid] at hl
  obtain ⟨t0, ht0⟩ := chainTo_head s _ _ _ hl
  rcases hpar with hsame | ⟨p, r, hp, hpr, hpu, hpgad⟩
  · -- parent reference unchanged: every lookup has the same parent view
    have hview : ∀ y, parentView s' y = parentView s y := by
      intro y
      by_cases hy : y = dept2.id
      · subst hy
        rw [parentView, parentView, hself, hfind]
        simp [hsame]
      · rw [parentView, parentView, hother y hy]
    have hlink : Links s' l := links_transfer (chainTo_links s _ _ _ hl) (fun y _ => hview y)
    have := links_chainTo s' hlink d'.id (s'.depts.length + 1)
      (by rw [ht0]; simp)
      (by rw [hlen]; exact le_trans (chain_length_le_depts s hl) (by omega))
    simp [this]
  · -- move: the new parent is neither the unit nor one of its descendants
    obtain ⟨hrm, hrid⟩ := findDept_mem hpr
    obtain ⟨lp, hlp⟩ := acyclic_chain hac hrm
    rw [hrid] at hlp
    obtain ⟨tp, htp⟩ := chainTo_head s _ _ _ hlp
    have hulp : dept2.id ∉ lp := by
      intro hmem
      rcases List.mem_cons.mp (htp ▸ hmem) with heq | htail
      · exact hpu heq.symm
      · exact hpgad (chain_tail_mem_gadUnion s hlp (by rw [htp]; simpa using htail))
    have hlp' : Links s' lp :=
      links_transfer (chainTo_links s _ _ _ hlp) (fun y hy => by
        have hyne : y ≠ dept2.id := fun hc => hulp (hc ▸ hy)
        rw [parentView, parentView, hother y hyne])
    have hulink : Links s' (dept2.id :: lp) := by
      rw [htp] at hlp' ⊢
      exact Links.cons dept2.id p dept2 tp hself hp hlp'
    by_cases hul : dept2.id ∈ l
    · -- splice the old prefix onto the new parent chain
      obtain ⟨a, b, hab⟩ := List.append_of_mem hul
      have hnd := chainTo_nodup s _ _ _ hl
      rw [hab] at hnd
      have hdisj := (List.nodup_append.mp hnd).2.2
      have hua : dept2.id ∉ a := fun hc => hdisj hc (by simp)
      have hLsplice : Links s' (a ++ dept2.id :: lp) :=
        links_splice a dept2.id b lp (hab ▸ chainTo_links s _ _ _ hl) hulink
          (fun y hy => by
            have hyne : y ≠ dept2.id := fun hc => hua (hc ▸ hy)
            rw [parentView, parentView, hother y hyne])
      -- the spliced list is nodup: a and the new parent chain are disjoint
      have hdisj2 : ∀ y ∈ a, y ∉ lp := by
        intro y hya hylp
        obtain ⟨a1, a2, ha12⟩ := List.append_of_mem hya
        obtain ⟨e, f, hef⟩ := List.append_of_mem hylp
        have hc1 : chainTo s y ((a2 ++ dept2.id :: b).length + 1)
            = some (y :: (a2 ++ dept2.id :: b)) :=
          @chain_suffix_eq s (s.depts.length + 1) d'.id l hl a1 y
            (a2 ++ dept2.id :: b) (by rw [hab, ha12]; simp)
        have hc2 : chainTo s y (f.length + 1) = some (y :: f) :=
          chain_suffix_eq s hlp hef
        have := chainTo_unique s hc1 hc2
        have huf : dept2.id ∈ f := by
          have : a2 ++ dept2.id :: b = f := by simpa using this
          rw [← this]
          simp
        exact hulp (hef ▸ List.mem_append_right e (List.mem_cons_of_mem y huf))
      have hLnodup : (a ++ dept2.id :: lp).Nodup := by
        rw [List.nodup_append]
        refine ⟨(List.nodup_append.mp hnd).1, ?_, ?_⟩
        · exact List.nodup_cons.mpr ⟨hulp, chainTo_nodup s _ _ _ hlp⟩
        · intro y hya
          simp only [List.mem_cons]
          rintro (rfl | hylp)
          · exact hua hya
          · exact hdisj2 y hya hylp
      have hLsubset : ∀ y ∈ a ++ dept2.id :: lp, y ∈ s.depts.map (fun d => d.id) := by
        intro y hy
        rcases List.mem_append.mp hy with hya | hyr
        · exact chain_subset_ids s hl y (by rw [hab]; exact List.mem_append_left _ hya)
        · rcases List.mem_cons.mp hyr with rfl | hylp
          · obtain ⟨hm0, hi0⟩ := findDept_mem hfind
            exact List.mem_map.mpr ⟨dept0, hm0, hi0⟩
          · exact chain_subset_ids s hlp y hylp
      have hLlen : (a ++ dept2.id :: lp).length ≤ s.depts.length := by
        have := nodup_subset_length hLnodup hLsubset
        simpa using this
      have hhead : (a ++ dept2.id :: lp).headI = d'.id := by
        have h1 : (a ++ dept2.id :: b).headI = d'.id := by rw [← hab, ht0]; simp
        cases a with
        | nil => simpa using h1
        | cons z a'' => simpa using h1
      have := links_chainTo s' hLsplice d'.id (s'.depts.length + 1) hhead
        (by rw [hlen]; omega)
      simp [this]
    · -- the old chain is untouched
      have hlink : Links s' l :=
        links_transfer (chainTo_links s _ _ _ hl) (fun y hy => by
          have hyne : y ≠ dept2.id := fun hc => hul (hc ▸ hy)
          rw [parentView, parentView, hother y hyne])
      have := links_chainTo s' hlink d'.id (s'.depts.length + 1)
        (by rw [ht0]; simp)
        (by rw [hlen]; exact le_trans (chain_length_le_depts s hl) (by omega))
      simp [this]

/-! ## Success-shape inversions of the service operations -/

theorem deptGetByID_ok {s : Store} {id : Int} {d : Department} :
    deptGetByID s id = .ok d ↔ findDept s id = some d := by
  unfold deptGetByID
  rcases hf : findDept s id with _ | r <;> simp [hf]

theorem gad_ok_eq {s : Store} {u : Int} {ds : List Int}
    (h : deptGetAllDescendantIDs s u = .ok ds) : ds = gadLevelsUnion s u := by
  unfold deptGetAllDescendantIDs at h
  by_cases hc : descLevel s u s.depts.length = []
  · rw [if_pos hc] at h
    exact (Except.ok.inj h).symm
  · rw [if_neg hc] at h
    exact absurd h (by simp)

theorem isDescendant_ok_false {s : Store} {anc desc : Int}
    (h : deptIsDescendant s anc desc = .ok false) :
    desc ∉ gadLevelsUnion s anc := by
  unfold deptIsDescendant at h
  rcases hg : deptGetAllDescendantIDs s anc with e | ds
  · rw [hg] at h; exact absurd h (by simp)
  · rw [hg] at h
    have hcon : ds.contains desc = false := by simpa using h
    rw [gad_ok_eq hg] at hcon
    simpa using hcon

theorem deptDelete_ok {s : Store} {id : Int} {s' : Store}
    (h : deptDelete s id = .ok s') :
    s' = { depts := s.depts.filter (fun d => !(cascadeRemoved s id).contains d.id),
           emps := s.emps.filter (fun e => !(cascadeRemoved s id).contains e.departmentId) } := by
  unfold deptDelete at h
  rcases hf : findDept s id with _ | r
  · rw [hf] at h; exact absurd h (by simp)
  · rw [hf] at h
    simp only at h
    exact (Except.ok.inj h).symm

theorem serviceCreate_ok {s : Store} {req : CreateDepartmentRequest} {s' : Store}
    {d : Department} (h : serviceCreate s req = .ok (s', d)) :
    (∀ p, req.parentID = some p → ∃ r, findDept s p = some r) ∧
    (s', d) = deptCreateRow s req.name.trim req.parentID := by
  unfold serviceCreate at h
  rcases hpid : req.parentID with _ | pid
  · simp only [hpid] at h
    by_cases hex : deptExistsByNameAndParent s req.name.trim none none
    · rw [if_pos hex] at h; exact absurd h (by simp)
    · rw [if_neg hex] at h
      exact ⟨by simp, (Except.ok.inj h).symm⟩
  · simp only [hpid] at h
    rcases hg : deptGetByID s pid with e | r
    · rw [hg] at h; simp at h
    · rw [hg] at h
      simp only at h
      by_cases hex : deptExistsByNameAndParent s req.name.trim (some pid) none
      · rw [if_pos hex] at h; exact absurd h (by simp)
      · rw [if_neg hex] at h
        refine ⟨?_, (Except.ok.inj h).symm⟩
        intro p hp
        exact ⟨r, by rw [← Option.some.inj hp]; exact deptGetByID_ok.mp hg⟩

theorem serviceUpdate_ok {s : Store} {id : Int} {req : UpdateDepartmentRequest}
    {s' : Store} {d2 : Department} (h : serviceUpdate s id req = .ok (s', d2)) :
    ∃ dept0, findDept s id = some dept0 ∧ dept0.id = id ∧ d2.id = id ∧
      s' = deptUpdateRow s d2 ∧
      (d2.parentId = dept0.parentId ∨
        ∃ p r, d2.parentId = some p ∧ findDept s p = some r ∧ p ≠ id ∧
          p ∉ gadLevelsUnion s id) := by
  unfold serviceUpdate at h
  rcases hg : deptGetByID s id with e | dept0
  · rw [hg] at h; simp at h
  · rw [hg] at h
    simp only at h
    have hfind : findDept s id = some dept0 := deptGetByID_ok.mp hg
    have hid0 : dept0.id = id := (findDept_mem hfind).2
    refine ⟨dept0, hfind, hid0, ?_⟩
    -- name step
    rcases hn : req.name with _ | n
    all_goals simp only [hn] at h
    · -- no rename: dept1 = dept0
      rcases hpid : req.parentID with _ | np
      all_goals simp only [hpid] at h
      · -- no move either
        have hinj := Except.ok.inj h
        have hs' : s' = deptUpdateRow s dept0 := by rw [← (Prod.mk.injEq _ _ _ _).mp hinj |>.1]
        have hd2 : d2 = dept0 := by rw [← (Prod.mk.injEq _ _ _ _).mp hinj |>.2]
        subst hd2
        exact ⟨hid0, hs', Or.inl rfl⟩
      · -- pure move
        by_cases hbeq : (np == id) = true
        · rw [if_pos hbeq] at h; simp at h
        · rw [if_neg hbeq] at h
          rcases hg2 : deptGetByID s np with e | r
          · rw [hg2] at h; simp at h
          · rw [hg2] at h
            simp only at h
            rcases hdesc : deptIsDescendant s id np with e | bv
            · rw [hdesc] at h; simp at h
            · rw [hdesc] at h
              simp only at h
              cases bv with
              | true => rw [if_pos rfl] at h; simp at h
              | false =>
                rw [if_neg (by simp)] at h
                by_cases hex : deptExistsByNameAndParent s dept0.name (some np) (some id)
                · rw [if_pos hex] at h; simp at h
                · rw [if_neg hex] at h
                  simp only at h
                  have hinj := Except.ok.inj h
                  have hs' := ((Prod.mk.injEq _ _ _ _).mp hinj).1
                  have hd2 := ((Prod.mk.injEq _ _ _ _).mp hinj).2
                  subst hd2
                  refine ⟨hid0, hs'.symm ▸ rfl, Or.inr ⟨np, r, rfl, deptGetByID_ok.mp hg2,
                    by simpa using hbeq, isDescendant_ok_false hdesc⟩⟩
    · -- rename requested
      by_cases hex1 : deptExistsByNameAndParent s n.trim
          (match req.parentID with | some _ => req.parentID | none => dept0.parentId)
          (some id)
      · rw [if_pos hex1] at h; simp at h
      · rw [if_neg hex1] at h
        simp only at h
        rcases hpid : req.parentID with _ | np
        all_goals simp only [hpid] at h
        · have hinj := Except.ok.inj h
          have hs' := ((Prod.mk.injEq _ _ _ _).mp hinj).1
          have hd2 := ((Prod.mk.injEq _ _ _ _).mp hinj).2
          subst hd2
          exact ⟨by simpa using hid0, hs'.symm ▸ rfl, Or.inl rfl⟩
        · by_cases hbeq : (np == id) = true
          · rw [if_pos hbeq] at h; simp at h
          · rw [if_neg hbeq] at h
            rcases hg2 : deptGetByID s np with e | r
            · rw [hg2] at h; simp at h
            · rw [hg2] at h
              simp only at h
              rcases hdesc : deptIsDescendant s id np with e | bv
              · rw [hdesc] at h; simp at h
              · rw [hdesc] at h
                simp only at h
                cases bv with
                | true => rw [if_pos rfl] at h; simp at h
                | false =>
                  rw [if_neg (by simp)] at h
                  simp only at h
                  have hinj := Except.ok.inj h
                  have hs' := ((Prod.mk.injEq _ _ _ _).mp hinj).1
                  have hd2 := ((Prod.mk.injEq _ _ _ _).mp hinj).2
                  subst hd2
                  refine ⟨by simpa using hid0, hs'.symm ▸ rfl,
                    Or.inr ⟨np, r, rfl, deptGetByID_ok.mp hg2,
                      by simpa using hbeq, isDescendant_ok_false hdesc⟩⟩

theorem serviceDelete_ok_shape {s : Store} {id : Int} {q : DeleteDepartmentQuery}
    {s' : Store} (h : serviceDelete s id q = .ok s') :
    ∃ emps', s' = { depts := s.depts.filter (fun d => !(cascadeRemoved s id).contains d.id),
                    emps := emps' } := by
  unfold serviceDelete at h
  rcases htr : serviceDeleteTr s id q with e | r
  · rw [htr] at h; simp at h
  · rw [htr] at h
    simp only at h
    have hs' : s' = r.1 := (Except.ok.inj h).symm
    subst hs'
    unfold serviceDeleteTr at htr
    rcases hg : deptGetByID s id with e | d0
    · rw [hg] at htr; simp at htr
    · rw [hg] at htr
      simp only at htr
      by_cases hm1 : (q.mode == "cascade") = true
      · rw [if_pos hm1] at htr
        rcases hdc : deptDeleteCascade s id with e | s3
        · rw [hdc] at htr; simp at htr
        · rw [hdc] at htr
          simp only at htr
          have hr : (s3, [StoreWrite.deleteDepartmentRow id]) = r := Except.ok.inj htr
          have h3 := deptDelete_ok (hdc : deptDelete s id = .ok s3)
          refine ⟨s.emps.filter (fun e => !(cascadeRemoved s id).contains e.departmentId), ?_⟩
          rw [← hr]
          exact h3
      · rw [if_neg hm1] at htr
        by_cases hm2 : (q.mode == "reassign") = true
        · rw [if_pos hm2] at htr
          rcases hrid : q.reassignToDepartmentID with _ | targetID
          · simp only [hrid] at htr; simp at htr
          · simp only [hrid] at htr
            by_cases hbeq : (targetID == id) = true
            · rw [if_pos hbeq] at htr; simp at htr
            · rw [if_neg hbeq] at htr
              rcases hg2 : deptGetByID s targetID with e2 | rt
              · rw [hg2] at htr
                cases e2 <;> simp at htr
              · rw [hg2] at htr
                simp only at htr
                rcases hgad : deptGetAllDescendantIDs
                    (empReassignToDepartment s id targetID) id with e3 | ds
                · rw [hgad] at htr; simp at htr
                · rw [hgad] at htr
                  simp only at htr
                  rcases hdc : deptDeleteCascade
                      (reassignDescendants targetID
                        (empReassignToDepartment s id targetID) ds).1 id with e4 | s3
                  · rw [hdc] at htr; simp at htr
                  · rw [hdc] at htr
                    simp only at htr
                    have hr : _ = r := Except.ok.inj htr
                    set s2 := (reassignDescendants targetID
                      (empReassignToDepartment s id targetID) ds).1 with hs2
                    have hdepts : s2.depts = s.depts := by
                      rw [hs2, reassignDescendants_depts]
                      exact empReassign_depts s id targetID
                    have h3 := deptDelete_ok (hdc : deptDelete s2 id = .ok s3)
                    have hcr : cascadeRemoved s2 id = cascadeRemoved s id := by
                      unfold cascadeRemoved
                      rw [gadLevelsUnion_congr hdepts]
                    refine ⟨s2.emps.filter
                      (fun e => !(cascadeRemoved s id).contains e.departmentId), ?_⟩
                    rw [← hr]
                    simp only
                    rw [h3, hcr, hdepts]
        · rw [if_neg hm2] at htr; simp at htr

/-- C4: from an acyclic store, every successful Create, Update (rename and/or
move) and Delete leaves an acyclic store in which no Unit is its own
ancestor. -/
theorem c4_acyclicity_invariant (s : Store) (hwf : s.WF) (hac : Acyclic s = true) :
    (∀ req s' d, serviceCreate s req = .ok (s', d) →
      Acyclic s' = true ∧ ∀ d' ∈ s'.depts, d'.id ∉ gadLevelsUnion s' d'.id) ∧
    (∀ id req s' d, serviceUpdate s id req = .ok (s', d) →
      Acyclic s' = true ∧ ∀ d' ∈ s'.depts, d'.id ∉ gadLevelsUnion s' d'.id) ∧
    (∀ id q s', serviceDelete s id q = .ok s' →
      Acyclic s' = true ∧ ∀ d' ∈ s'.depts, d'.id ∉ gadLevelsUnion s' d'.id) := by
  refine ⟨?_, ?_, ?_⟩
  · intro req s' d h
    obtain ⟨hpar, hshape⟩ := serviceCreate_ok h
    have hs' : s' = (deptCreateRow s req.name.trim req.parentID).1 := by
      rw [← hshape]
    have hac' : Acyclic s' = true := by
      rw [hs']
      exact acyclic_createRow s hac req.name.trim req.parentID hpar
    have hwf' : s'.WF := by
      rw [hs']
      exact WF_append_fresh hwf (fun d hd => freshDeptId_not_key s d hd)
    exact ⟨hac', fun d' _ => acyclic_not_mem_gad_self s' hwf' hac' d'.id⟩
  · intro id req s' d2 h
    obtain ⟨dept0, hfind, hid0, hd2id, hs', hpar⟩ := serviceUpdate_ok h
    have hfind2 : findDept s d2.id = some dept0 := by rw [hd2id]; exact hfind
    have hpar2 : d2.parentId = dept0.parentId ∨
        ∃ p r, d2.parentId = some p ∧ findDept s p = some r ∧ p ≠ d2.id ∧
          p ∉ gadLevelsUnion s d2.id := by
      rcases hpar with h1 | ⟨p, r, hp, hpr, hpne, hpgad⟩
      · exact Or.inl h1
      · exact Or.inr ⟨p, r, hp, hpr, by rw [hd2id]; exact hpne, by rw [hd2id]; exact hpgad⟩
    have hac' : Acyclic s' = true := by
      rw [hs']
      exact acyclic_updateRow s hac hfind2 hpar2
    have hwf' : s'.WF := by
      rw [hs']
      refine WF_updateRow hwf d2 ?_
      obtain ⟨hmem, hid⟩ := findDept_mem hfind2
      exact List.any_eq_true.mpr ⟨dept0, hmem, by simp [hid]⟩
    exact ⟨hac', fun d' _ => acyclic_not_mem_gad_self s' hwf' hac' d'.id⟩
  · intro id q s' h
    obtain ⟨emps', hs'⟩ := serviceDelete_ok_shape h
    have hac' : Acyclic s' = true := by
      rw [hs']
      exact acyclic_filter_removed s hwf hac id emps'
    have hwf' : s'.WF := by
      rw [hs']
      exact WF_filter hwf _ emps'
    exact ⟨hac', fun d' _ => acyclic_not_mem_gad_self s' hwf' hac' d'.id⟩

/-! ## Example stores -/

/-- A corrupted store with a parent cycle `1 → 2 → 1`. -/
def cycStore : Store :=
  { depts := [{ id := 1, name := "a", parentId := some 2, createdAt := 0 },
              { id := 2, name := "b", parentId := some 1, createdAt := 0 }],
    emps := [] }

/-- A root with one child and one member owned by the root. -/
def lossStore : Store :=
  { depts := [{ id := 1, name := "root", parentId := none, createdAt := 0 },
              { id := 2, name := "child", parentId := some 1, createdAt := 0 }],
    emps := [{ id := 10, departmentId := 1, fullName := "m", position := "p",
               createdAt := 0 }] }

/-- A four-level tree with members at several levels, members listed out of
creation order. -/
def projStore : Store :=
  { depts := [{ id := 1, name := "Company", parentId := none, createdAt := 0 },
              { id := 2, name := "IT", parentId := some 1, createdAt := 0 },
              { id := 3, name := "HR", parentId := some 1, createdAt := 0 },
              { id := 4, name := "Dev", parentId := some 2, createdAt := 0 },
              { id := 5, name := "Backend", parentId := some 4, createdAt := 0 }],
    emps := [{ id := 101, departmentId := 1, fullName := "A", position := "P",
               createdAt := 5 },
             { id := 102, departmentId := 1, fullName := "B", position := "Q",
               createdAt := 2 },
             { id := 103, departmentId := 2, fullName := "C", position := "R",
               createdAt := 1 },
             { id := 104, departmentId := 4, fullName := "D", position := "S",
               createdAt := 9 },
             { id := 105, departmentId := 4, fullName := "E", position := "T",
               createdAt := 3 },
             { id := 106, departmentId := 5, fullName := "F", position := "U",
               createdAt := 1 }] }

/-- A root `1` with child `2`, a separate root `3` as reassignment target,
and one member under each of `1` and `2`. -/
def faultStore : Store :=
  { depts := [{ id := 1, name := "r", parentId := none, createdAt := 0 },
              { id := 2, name := "c", parentId := some 1, createdAt := 0 },
              { id := 3, name := "t", parentId := none, createdAt := 0 }],
    emps := [{ id := 10, departmentId := 1, fullName := "x", position := "p",
               createdAt := 0 },
             { id := 11, departmentId := 2, fullName := "y", position := "q",
               createdAt := 1 }] }

/-! ## Further inversion helpers -/

theorem deptGetByID_error_eq {s : Store} {id : Int} {e : Err}
    (h : deptGetByID s id = .error e) : e = .departmentNotFound := by
  unfold deptGetByID at h
  rcases hf : findDept s id with _ | r
  · rw [hf] at h; simpa using h.symm
  · rw [hf] at h; simp at h

theorem gad_error_eq {s : Store} {u : Int} {e : Err}
    (h : deptGetAllDescendantIDs s u = .error e) : e = .queryDiverges := by
  unfold deptGetAllDescendantIDs at h
  by_cases hc : descLevel s u s.depts.length = []
  · rw [if_pos hc] at h; simp at h
  · rw [if_neg hc] at h; simpa using h.symm

theorem isDescendant_error_eq {s : Store} {a b : Int} {e : Err}
    (h : deptIsDescendant s a b = .error e) : e = .queryDiverges := by
  unfold deptIsDescendant at h
  rcases hg : deptGetAllDescendantIDs s a with e' | ds
  · rw [hg] at h
    have : e' = e := by simpa using h
    exact this ▸ gad_error_eq hg
  · rw [hg] at h; simp at h

theorem gad_congr {s s' : Store} (h : s'.depts = s.depts) (u : Int) :
    deptGetAllDescendantIDs s' u = deptGetAllDescendantIDs s u := by
  unfold deptGetAllDescendantIDs
  rw [descLevel_congr h, h, gadLevelsUnion_congr h]

/-! ## C3: the descendant resolver on a corrupted (cyclic) store -/

/-- C3 counterexample: on the cyclic store the recursive CTE of
`GetAllDescendantIDs` never returns (modelled `queryDiverges`); there is no
visited-set guard and no Integrity error — the error enumeration of
`internal/domain/errors.go` contains no such error at all. -/
theorem c3_counterexample :
    deptGetAllDescendantIDs cycStore 1 = .error .queryDiverges ∧
    deptIsDescendant cycStore 1 2 = .error .queryDiverges := by
  constructor <;> rfl

/-- C3 amended: `GetAllDescendantIDs` delegates to a store-side recursive CTE
with no visited set; on a store with a reachable parent cycle the CTE's
frontier is non-empty at every depth, so the traversal never terminates and
no Integrity error is surfaced (the embedded call diverges instead). -/
theorem c3_amended_cte_diverges_on_cycle :
    (∀ n, descLevel cycStore 1 n ≠ []) ∧
    deptGetAllDescendantIDs cycStore 1 = .error .queryDiverges ∧
    deptIsDescendant cycStore 1 2 = .error .queryDiverges := by
  refine ⟨?_, rfl, rfl⟩
  have hinv : ∀ n, descLevel cycStore 1 n = [2] ∨ descLevel cycStore 1 n = [1] := by
    intro n
    induction n with
    | zero => exact Or.inl rfl
    | succ m ih =>
      rcases ih with h2 | h1
      · rw [descLevel, h2]
        exact Or.inr rfl
      · rw [descLevel, h1]
        exact Or.inl rfl
  intro n
  rcases hinv n with h | h <;> simp [h]

/-! ## C2: cascade delete issues a single row delete -/

/-- C2 counterexample: deleting unit `1` (whose subtree is `{1, 2}`) in
cascade mode issues exactly one store write — the row delete of `1` — and no
per-unit or per-member removals, even though unit `2` is in the subtree; the
subtree disappears only through the store's referential action. -/
theorem c2_counterexample :
    serviceDeleteTr lossStore 1 { mode := "cascade", reassignToDepartmentID := none }
      = .ok ({ depts := [], emps := [] }, [StoreWrite.deleteDepartmentRow 1]) ∧
    (2 : Int) ∈ gadLevelsUnion lossStore 1 := by
  constructor
  · rfl
  · decide

/-- C2 amended: for every store and existing unit, `Delete(cascade)` issues
the single write `deleteDepartmentRow id` and relies on the store's
referential-action cascade for the subtree and its members. -/
theorem c2_amended_single_delete (s : Store) (id : Int) {du : Department}
    (hu : findDept s id = some du) :
    serviceDeleteTr s id { mode := "cascade", reassignToDepartmentID := none }
      = .ok ({ depts := s.depts.filter (fun d => !(cascadeRemoved s id).contains d.id),
               emps := s.emps.filter (fun e => !(cascadeRemoved s id).contains e.departmentId) },
             [StoreWrite.deleteDepartmentRow id]) := by
  unfold serviceDeleteTr
  rw [deptGetByID_ok.mpr hu]
  simp only
  rw [if_pos (by rfl)]
  show (match deptDeleteCascade s id with
    | .error e => Except.error e
    | .ok s' => Except.ok (s', [StoreWrite.deleteDepartmentRow id])) = _
  unfold deptDeleteCascade deptDelete
  rw [hu]

/-- C2 amended witness. -/
theorem c2_amended_single_delete_witness :
    serviceDeleteTr lossStore 1 { mode := "cascade", reassignToDepartmentID := none }
      = .ok ({ depts := lossStore.depts.filter
                 (fun d => !(cascadeRemoved lossStore 1).contains d.id),
               emps := lossStore.emps.filter
                 (fun e => !(cascadeRemoved lossStore 1).contains e.departmentId) },
             [StoreWrite.deleteDepartmentRow 1]) :=
  c2_amended_single_delete lossStore 1 (by rfl)

/-! ## C8: depth handling of the GET query -/

/-- C8 counterexample: a request for depth `6` on an existing unit is
rejected by the handler's validation (`validate:"min=1,max=5"`) — it does not
yield a successful projection clamped to depth `5`. -/
theorem c8_counterexample :
    handlerGetByID projStore 1 { depth := some 6, includeEmployees := none }
      = .validationError ∧
    handlerGetByID projStore 1 { depth := some 0, includeEmployees := none }
      = .validationError := by
  constructor <;> rfl

/-- C8 amended: a parsed `depth` outside `[1, 5]` makes the handler reject
the request with a validation error rather than clamping it; `depth` defaults
to `1` when the parameter is absent or unparseable, and `include_employees`
defaults to `true` when not supplied. -/
theorem c8_amended_validation_not_clamping :
    (∀ (s : Store) (id dv : Int) (i : Option String), (dv < 1 ∨ 5 < dv) →
      handlerGetByID s id { depth := some dv, includeEmployees := i }
        = .validationError) ∧
    (∀ dOpt, (parseGetQuery { depth := dOpt, includeEmployees := none }).includeEmployees
        = true) ∧
    (parseGetQuery { depth := none, includeEmployees := none }).depth = 1 := by
  refine ⟨?_, ?_, rfl⟩
  · intro s id dv i hdv
    have hval : validateGetQuery (parseGetQuery { depth := some dv, includeEmployees := i })
        = false := by
      have hd : (parseGetQuery { depth := some dv, includeEmployees := i }).depth = dv := by
        unfold parseGetQuery
        rcases i with _ | v <;> rfl
      unfold validateGetQuery
      rw [hd]
      rcases hdv with h | h
      · have : ¬(1 ≤ dv) := by omega
        simp [this]
      · have : ¬(dv ≤ 5) := by omega
        simp [this]
    simp [handlerGetByID, hval]
  · intro dOpt
    unfold parseGetQuery
    rcases dOpt with _ | v <;> rfl

/-- C8 amended witness. -/
theorem c8_amended_validation_not_clamping_witness :
    handlerGetByID projStore 1 { depth := some 7, includeEmployees := some "true" }
      = .validationError :=
  c8_amended_validation_not_clamping.1 projStore 1 7 (some "true") (by omega)

/-! ## C9: projection of a three-plus-level tree at depth 2 -/

/-- C9: projecting the root of `projStore` at depth `2` with members returns
the root, its children and its grandchildren as nested units, omits the
grandchild's own child (`Backend`, id 5, which exists in the store), and
attaches each included unit's members sorted by creation time ascending. -/
theorem c9_projection_depth_two :
    serviceGetByID projStore 1 { depth := 2, includeEmployees := true } =
      .ok (.node { id := 1, name := "Company", parentId := none, createdAt := 0 }
        [{ id := 102, departmentId := 1, fullName := "B", position := "Q", createdAt := 2 },
         { id := 101, departmentId := 1, fullName := "A", position := "P", createdAt := 5 }]
        [.node { id := 2, name := "IT", parentId := some 1, createdAt := 0 }
          [{ id := 103, departmentId := 2, fullName := "C", position := "R", createdAt := 1 }]
          [.node { id := 4, name := "Dev", parentId := some 2, createdAt := 0 }
            [{ id := 105, departmentId := 4, fullName := "E", position := "T", createdAt := 3 },
             { id := 104, departmentId := 4, fullName := "D", position := "S", createdAt := 9 }]
            []],
         .node { id := 3, name := "HR", parentId := some 1, createdAt := 0 }
          [] []]) ∧
    childrenDepts projStore 4 =
      [{ id := 5, name := "Backend", parentId := some 4, createdAt := 0 }] := by
  constructor <;> rfl

/-! ## C5: moving under oneself or one's descendant -/

/-- C5: for an existing unit, a pure Move whose new parent is the unit itself
fails with `SelfReference`, and one whose new parent is any current
descendant fails with `CyclicReference`.  A failing `serviceUpdate` returns
only the error — the sole store write (`deptRepo.Update`) happens after every
check, so the failing operation changes no department row. -/
theorem c5_move_self_or_descendant_rejected (s : Store) (hwf : s.WF)
    (hac : Acyclic s = true) (u : Int) {du : Department}
    (hu : findDept s u = some du) :
    serviceUpdate s u { name := none, parentID := some u } = .error .selfReference ∧
    ∀ p ∈ gadLevelsUnion s u,
      serviceUpdate s u { name := none, parentID := some p }
        = .error .cyclicReference := by
  constructor
  · unfold serviceUpdate
    rw [deptGetByID_ok.mpr hu]
    simp only
    rw [if_pos (by simp : (u == u) = true)]
  · intro p hp
    have hpne : (p == u) = false := by
      simp only [beq_eq_false_iff_ne, ne_eq]
      intro hc
      exact acyclic_not_mem_gad_self s hwf hac u (hc ▸ hp)
    obtain ⟨k, _, hk⟩ := List.mem_flatMap.mp hp
    obtain ⟨rowd, hrowm, hrowid⟩ := mem_descLevel_row hk
    have hrowp : findDept s p = some rowd := by
      rw [← hrowid]
      exact findDept_of_mem hwf hrowm
    have hdesc : deptIsDescendant s u p = .ok true := by
      unfold deptIsDescendant
      rw [acyclic_gad_ok s hwf hac u]
      simp only
      have : (gadLevelsUnion s u).contains p = true := by simpa using hp
      rw [this]
    unfold serviceUpdate
    rw [deptGetByID_ok.mpr hu]
    simp only
    rw [if_neg (by simp [hpne])]
    rw [deptGetByID_ok.mpr hrowp]
    simp only
    rw [hdesc]
    simp

/-- C5 witness. -/
theorem c5_move_self_or_descendant_rejected_witness :
    serviceUpdate lossStore 1 { name := none, parentID := some 1 }
        = .error .selfReference ∧
    serviceUpdate lossStore 1 { name := none, parentID := some 2 }
        = .error .cyclicReference := by
  have h := c5_move_self_or_descendant_rejected lossStore (by decide) (by decide) 1 (by rfl)
  exact ⟨h.1, h.2 2 (by decide)⟩

/-! ## C7: combined rename-and-move uniqueness -/

/-- C7: when an Update carries both a new name and a new parent, the
operation fails `Duplicate` exactly when the trimmed incoming name collides
under the incoming parent, excluding the unit itself — the post-mutation
combination. -/
theorem c7_combined_uniqueness_post_state (s : Store) (u : Int)
    {du : Department} (hu : findDept s u = some du) (n : String) (p : Int) :
    serviceUpdate s u { name := some n, parentID := some p }
        = .error .duplicateDepartmentName ↔
      deptExistsByNameAndParent s n.trim (some p) (some u) = true := by
  unfold serviceUpdate
  rw [deptGetByID_ok.mpr hu]
  simp only
  by_cases hex : deptExistsByNameAndParent s n.trim (some p) (some u)
  · rw [if_pos hex]
    simp [hex]
  · rw [if_neg hex]
    simp only
    constructor
    · intro h
      exfalso
      by_cases hbeq : (p == u) = true
      · rw [if_pos hbeq] at h
        simp at h
      · rw [if_neg hbeq] at h
        rcases hg2 : deptGetByID s p with e | r
        · rw [hg2] at h
          simp only at h
          rw [deptGetByID_error_eq hg2] at h
          simp at h
        · rw [hg2] at h
          simp only at h
          rcases hdesc : deptIsDescendant s u p with e | bv
          · rw [hdesc] at h
            simp only at h
            rw [isDescendant_error_eq hdesc] at h
            simp at h
          · rw [hdesc] at h
            simp only at h
            cases bv with
            | true =>
              rw [if_pos rfl] at h
              simp at h
            | false =>
              rw [if_neg (by simp)] at h
              simp at h
    · intro hex'
      exact absurd hex' hex

/-- C7 witness: in `projStore`, renaming unit 3 (HR) to "Dev" while moving it
under unit 2 collides with the existing sibling "Dev" under 2; renaming it to
"Ops" at the same parent does not fail `Duplicate`. -/
theorem c7_combined_uniqueness_post_state_witness :
    (serviceUpdate projStore 3 { name := some "Dev", parentID := some 2 }
        = .error .duplicateDepartmentName ↔
      deptExistsByNameAndParent projStore "Dev".trim (some 2) (some 3) = true) ∧
    (serviceUpdate projStore 3 { name := some "Ops", parentID := some 2 }
        = .error .duplicateDepartmentName ↔
      deptExistsByNameAndParent projStore "Ops".trim (some 2) (some 3) = true) :=
  ⟨c7_combined_uniqueness_post_state projStore 3 (by rfl) "Dev" 2,
   c7_combined_uniqueness_post_state projStore 3 (by rfl) "Ops" 2⟩

/-! ## The reassign-mode delete path -/

/-- Full evaluation of `Delete(reassign)` on an acyclic store with an
existing unit and an existing target distinct from it. -/
theorem serviceDelete_reassign_eq (s : Store) (hwf : s.WF) (hac : Acyclic s = true)
    (u t : Int) {du dt : Department} (hu : findDept s u = some du)
    (ht : findDept s t = some dt) (hne : t ≠ u) :
    serviceDelete s u { mode := "reassign", reassignToDepartmentID := some t } =
      .ok { depts := s.depts.filter (fun d => !(cascadeRemoved s u).contains d.id),
            emps := (reassignDescendants t (empReassignToDepartment s u t)
                      (gadLevelsUnion s u)).1.emps.filter
                      (fun e => !(cascadeRemoved s u).contains e.departmentId) } := by
  have hd1 : (empReassignToDepartment s u t).depts = s.depts := rfl
  have hgad : deptGetAllDescendantIDs (empReassignToDepartment s u t) u
      = .ok (gadLevelsUnion s u) := by
    rw [gad_congr hd1]
    exact acyclic_gad_ok s hwf hac u
  have hd2 : (reassignDescendants t (empReassignToDepartment s u t)
      (gadLevelsUnion s u)).1.depts = s.depts := by
    rw [reassignDescendants_depts]
    exact hd1
  have hcr : cascadeRemoved (reassignDescendants t (empReassignToDepartment s u t)
      (gadLevelsUnion s u)).1 u = cascadeRemoved s u := by
    unfold cascadeRemoved
    rw [gadLevelsUnion_congr hd2]
  have hdel : deptDeleteCascade (reassignDescendants t (empReassignToDepartment s u t)
      (gadLevelsUnion s u)).1 u =
      .ok { depts := s.depts.filter (fun d => !(cascadeRemoved s u).contains d.id),
            emps := (reassignDescendants t (empReassignToDepartment s u t)
                      (gadLevelsUnion s u)).1.emps.filter
                      (fun e => !(cascadeRemoved s u).contains e.departmentId) } := by
    show deptDelete _ _ = _
    unfold deptDelete
    rw [findDept_congr hd2 u, hu]
    simp only
    rw [hcr, hd2]
  unfold serviceDelete serviceDeleteTr
  rw [deptGetByID_ok.mpr hu]
  simp only
  rw [if_neg (by decide), if_pos (by decide)]
  rw [if_neg (by simp [hne])]
  rw [deptGetByID_ok.mpr ht]
  simp only
  rw [hgad]
  simp only
  rw [hdel]

/-! ## C10: a strict descendant is accepted as reassign target -/

/-- C10: in `Delete(reassign)` the only self-targeting rejected is
`t = id` itself; an existing target inside the subtree being deleted — a
strict descendant — is accepted, Members are reassigned to it, and the
subtree (including the target) is then deleted. -/
theorem c10_descendant_target_accepted (s : Store) (hwf : s.WF)
    (hac : Acyclic s = true) (u t : Int) {du : Department}
    (hu : findDept s u = some du) (htmem : t ∈ gadLevelsUnion s u) :
    ∃ s', serviceDelete s u { mode := "reassign", reassignToDepartmentID := some t }
        = .ok s' ∧ findDept s' t = none := by
  obtain ⟨k, _, hk⟩ := List.mem_flatMap.mp htmem
  obtain ⟨rowd, hrowm, hrowid⟩ := mem_descLevel_row hk
  have ht : findDept s t = some rowd := by
    rw [← hrowid]
    exact findDept_of_mem hwf hrowm
  have hne : t ≠ u := fun hc => acyclic_not_mem_gad_self s hwf hac u (hc ▸ htmem)
  refine ⟨_, serviceDelete_reassign_eq s hwf hac u t hu ht hne, ?_⟩
  have htR : t ∈ cascadeRemoved s u := by
    rw [cascadeRemoved]
    simp [htmem]
  unfold findDept
  refine List.find?_eq_none.mpr ?_
  intro x hx
  obtain ⟨_, hq⟩ := List.mem_filter.mp hx
  intro hxt
  have hxid : x.id = t := by simpa using hxt
  rw [← hxid] at htR
  simp [htR] at hq

/-- C10 witness: in `faultStore`, deleting unit 1 with reassign target 2
(its child) succeeds and removes unit 2. -/
theorem c10_descendant_target_accepted_witness :
    ∃ s', serviceDelete faultStore 1
        { mode := "reassign", reassignToDepartmentID := some 2 }
      = .ok s' ∧ findDept s' 2 = none :=
  c10_descendant_target_accepted faultStore (by decide) (by decide) 1 2
    (by rfl) (by decide)

/-! ## C1: Delete(reassign) and member preservation -/

/-- C1 counterexample: with unit 1 owning member 10 and child unit 2, the
reassign target `t = 2` (a strict descendant, distinct from 1) is accepted;
member 10 is re-owned to 2 and then destroyed by the store cascade when the
subtree (including 2) is removed — the member is lost, refuting "no Member
lost" for arbitrary targets distinct from the deleted unit. -/
theorem c1_counterexample :
    serviceDelete lossStore 1 { mode := "reassign", reassignToDepartmentID := some 2 }
        = .ok { depts := [], emps := [] } ∧
    lossStore.emps.length = 1 := by
  constructor <;> rfl

/-- The descendant loop composes to one pointwise remap when the target is
not itself in the processed list. -/
theorem reassignDescendants_emps_map (t : Int) :
    ∀ (ds : List Int) (s : Store), t ∉ ds →
      (reassignDescendants t s ds).1.emps =
        s.emps.map (fun e => if ds.contains e.departmentId
          then { e with departmentId := t } else e) := by
  intro ds
  induction ds with
  | nil =>
    intro s _
    simp [reassignDescendants]
  | cons d rest ih =>
    intro s hts
    have hts' : t ∉ rest := fun hc => hts (List.mem_cons_of_mem d hc)
    have htd : t ≠ d := fun hc => hts (hc ▸ List.mem_cons_self d rest)
    show (reassignDescendants t (empReassignToDepartment s d t) rest).1.emps = _
    rw [ih (empReassignToDepartment s d t) hts']
    show ((s.emps.map _).map _) = _
    rw [List.map_map]
    refine List.map_congr_left ?_
    intro e _
    by_cases hed : e.departmentId = d
    · simp [hed, hts']
    · by_cases hr : e.departmentId ∈ rest
      · simp [hed, hr]
      · simp [hed, hr]

/-- C1 amended: for an existing target outside the deleted subtree (neither
the unit itself nor one of its descendants), `Delete(reassign)` re-owns every
member owned by the subtree to the target with no loss or duplication (the
member list is a pointwise remap of the original), removes exactly the
subtree of units, and leaves no member pointing at a removed unit. -/
theorem c1_reassign_outside_preserves_members (s : Store) (hwf : s.WF)
    (hac : Acyclic s = true) (u t : Int) {du dt : Department}
    (hu : findDept s u = some du) (ht : findDept s t = some dt)
    (hne : t ≠ u) (houts : t ∉ gadLevelsUnion s u) :
    serviceDelete s u { mode := "reassign", reassignToDepartmentID := some t } =
      .ok { depts := s.depts.filter (fun d => !(cascadeRemoved s u).contains d.id),
            emps := s.emps.map (fun e => if (cascadeRemoved s u).contains e.departmentId
              then { e with departmentId := t } else e) } ∧
    ∀ e ∈ s.emps.map (fun e => if (cascadeRemoved s u).contains e.departmentId
        then { e with departmentId := t } else e),
      (cascadeRemoved s u).contains e.departmentId = false := by
  have htR : (cascadeRemoved s u).contains t = false := by
    rw [cascadeRemoved]
    simp
    exact ⟨fun hc => hne hc, houts⟩
  have hremap : ∀ e ∈ s.emps.map (fun e => if (cascadeRemoved s u).contains e.departmentId
      then { e with departmentId := t } else e),
      (cascadeRemoved s u).contains e.departmentId = false := by
    intro e he
    obtain ⟨e0, _, he0⟩ := List.mem_map.mp he
    by_cases h0 : (cascadeRemoved s u).contains e0.departmentId = true
    · have h0' : e0.departmentId ∈ cascadeRemoved s u := by simpa using h0
      have htR' : t ∉ cascadeRemoved s u := by simpa using htR
      rw [← he0]
      simp [h0', htR']
    · have h0' : e0.departmentId ∉ cascadeRemoved s u := by simpa using h0
      rw [← he0]
      simp [h0']
  refine ⟨?_, hremap⟩
  rw [serviceDelete_reassign_eq s hwf hac u t hu ht hne]
  have hemps : (reassignDescendants t (empReassignToDepartment s u t)
      (gadLevelsUnion s u)).1.emps =
      s.emps.map (fun e => if (cascadeRemoved s u).contains e.departmentId
        then { e with departmentId := t } else e) := by
    rw [reassignDescendants_emps_map t (gadLevelsUnion s u) _ houts]
    show ((s.emps.map _).map _) = _
    rw [List.map_map]
    refine List.map_congr_left ?_
    intro e _
    have hmemu : u ∈ cascadeRemoved s u := by rw [cascadeRemoved]; simp
    by_cases heu : e.departmentId = u
    · simp [heu, houts, hmemu]
    · by_cases hg : e.departmentId ∈ gadLevelsUnion s u
      · have hmem2 : e.departmentId ∈ cascadeRemoved s u := by
          rw [cascadeRemoved]
          simp [hg]
        simp [heu, hg, hmem2]
      · have hnot : e.departmentId ∉ cascadeRemoved s u := by
          rw [cascadeRemoved]
          simp
          exact ⟨heu, hg⟩
        simp [heu, hg, hnot]
  rw [hemps]
  have hfil : (s.emps.map (fun e => if (cascadeRemoved s u).contains e.departmentId
        then { e with departmentId := t } else e)).filter
        (fun e => !(cascadeRemoved s u).contains e.departmentId)
      = s.emps.map (fun e => if (cascadeRemoved s u).contains e.departmentId
        then { e with departmentId := t } else e) :=
    List.filter_eq_self.mpr (fun e he => by
      have := hremap e he
      simpa using this)
  rw [hfil]

/-- C1 amended witness: in `faultStore`, deleting unit 1 (subtree `{1, 2}`,
members 10 and 11) with the outside target 3 remaps both members to 3 and
removes the subtree. -/
theorem c1_reassign_outside_preserves_members_witness :
    serviceDelete faultStore 1 { mode := "reassign", reassignToDepartmentID := some 3 } =
      .ok { depts := faultStore.depts.filter
              (fun d => !(cascadeRemoved faultStore 1).contains d.id),
            emps := faultStore.emps.map
              (fun e => if (cascadeRemoved faultStore 1).contains e.departmentId
                then { e with departmentId := 3 } else e) } :=
  (c1_reassign_outside_preserves_members faultStore (by decide) (by decide) 1 3
    (by rfl) (by rfl) (by decide) (by decide)).1

/-! ## C6: atomicity of the multi-step delete sequence -/

/-- C6 counterexample: `Delete(reassign)` of unit 1 (child 2, target 3) with
the store failing the descendant's member-reassignment write: the operation
returns the store error, yet the root's members have already been re-owned to
3 — the earlier write is not rolled back, so the store is not left as it was.
(The repository issues its writes directly on the gorm handle; no
`db.Transaction` exists anywhere in the code.) -/
theorem c6_counterexample :
    serviceDeleteFaulty (fun w => w == .reassignEmployees 2 3) faultStore 1
        { mode := "reassign", reassignToDepartmentID := some 3 }
      = (.error .storeFailure, empReassignToDepartment faultStore 1 3) ∧
    empReassignToDepartment faultStore 1 3 ≠ faultStore := by
  constructor
  · rfl
  · decide

/-- C6 amended: the Delete(reassign) sequence is not atomic.  Whenever the
bulk reassignment for the first descendant fails after the root's members
were already re-owned, the service surfaces the error while the root
reassignment stays applied: the final store is
`empReassignToDepartment s u t`, not the original `s`. -/
theorem c6_amended_no_rollback (s : Store) (u t d : Int) {du dt : Department}
    (hu : findDept s u = some du) (ht : findDept s t = some dt)
    (hne : t ≠ u) (hdu : d ≠ u) {rest : List Int}
    (hds : deptGetAllDescendantIDs (empReassignToDepartment s u t) u
      = .ok (d :: rest)) :
    serviceDeleteFaulty (fun w => w == .reassignEmployees d t) s u
        { mode := "reassign", reassignToDepartmentID := some t }
      = (.error .storeFailure, empReassignToDepartment s u t) := by
  unfold serviceDeleteFaulty
  rw [deptGetByID_ok.mpr hu]
  simp only
  rw [if_neg (by decide), if_pos (by decide)]
  rw [if_neg (by simp [hne])]
  rw [deptGetByID_ok.mpr ht]
  simp only
  rw [if_neg (by simp; intro hc; exact absurd hc.symm hdu)]
  rw [hds]
  simp only
  rw [reassignDescendantsFaulty]
  rw [if_pos (by simp)]

/-- C6 amended witness. -/
theorem c6_amended_no_rollback_witness :
    serviceDeleteFaulty (fun w => w == .reassignEmployees 2 3) faultStore 1
        { mode := "reassign", reassignToDepartmentID := some 3 }
      = (.error .storeFailure, empReassignToDepartment faultStore 1 3) :=
  c6_amended_no_rollback faultStore 1 3 2 (by rfl) (by rfl) (by decide) (by decide)
    (by rfl)

/-- C4 witness: `projStore` is wellformed and acyclic; a successful cascade
delete of unit 5 applies the invariant theorem. -/
theorem c4_acyclicity_invariant_witness :
    ∃ s', serviceDelete projStore 5 { mode := "cascade", reassignToDepartmentID := none }
        = .ok s' ∧ Acyclic s' = true := by
  have h := (c4_acyclicity_invariant projStore (by decide) (by decide)).2.2 5
    { mode := "cascade", reassignToDepartmentID := none }
  exact ⟨_, rfl, (h _ (by rfl)).1⟩

end OrgStructure
